import Mathlib

/-!
Verification of the creature-creator prototype's Adaptive Particle-Repulsion
Sampler core, as a shallow embedding in Lean 4.

Conventions used throughout the embedding:
* `f32` values are modelled by real numbers (`ℝ`); the floating-point
  constants of the source are carried over as the exact rationals they denote
  in the source text (`0.03 = 3/100`, `f32::EPSILON = 2⁻²³`, ...).
* Rust `Vec<T>` is a `List`; `Vec::push` appends at the end, `Vec::pop`
  removes the last element.
* A Rust `panic!` (including failed asserts and out-of-bounds accesses) is
  modelled by `Option`/`Except` failure values.
* Arenas indexed by `usize` are modelled as total functions `ℕ → _` or as
  lists read through `List.getD`.
-/

namespace CreatureCreator

/-! ## Slot allocator, plain variant (src/src/buffer_allocator.rs)

`StackBufferAllocator` tracks the highest index given out (`buffer_head`)
and a stack of returned indices.  The `SIZE` const generic of the source is
phantom in this variant: no operation consults it. -/

structure StackBufferAllocator where
  bufferHead : ℕ
  returnedIndices : List ℕ
  deriving Repr, DecidableEq

/-- `StackBufferAllocator::new()`. -/
def StackBufferAllocator.new : StackBufferAllocator :=
  { bufferHead := 0, returnedIndices := [] }

/-- `StackBufferAllocator::insert` (plain variant): pop a returned index if
one is pending (from the end of the `Vec`), otherwise hand out `buffer_head`
and bump it.  There is no capacity check and the call never fails. -/
def StackBufferAllocator.insert (s : StackBufferAllocator) :
    ℕ × StackBufferAllocator :=
  match s.returnedIndices.getLast? with
  | some i => (i, { s with returnedIndices := s.returnedIndices.dropLast })
  | none => (s.bufferHead, { s with bufferHead := s.bufferHead + 1 })

/-- `StackBufferAllocator::remove` (plain variant): push the index on the
stack of returned indices. -/
def StackBufferAllocator.remove (s : StackBufferAllocator) (index : ℕ) :
    StackBufferAllocator :=
  { s with returnedIndices := s.returnedIndices ++ [index] }

/-- The indices produced by `n` successive `insert` calls. -/
def insertResults : StackBufferAllocator → ℕ → List ℕ
  | _, 0 => []
  | s, n + 1 =>
    let r := s.insert
    r.1 :: insertResults r.2 n

/-! ## Slot allocator, metal-renderer variant
(src/creature-creator-metal-renderer/src/surfaces/sampling/buffer_allocator.rs)

This variant keeps `returned_indices` sorted in descending order, enforces
`assert!(buffer_head < SIZE)` after bumping the head in `insert`, and tries
to shrink `buffer_head` on `remove`.  `slice::partition_point` is embedded as
the number of leading elements satisfying the predicate, which is what the
standard library's binary search computes on a partitioned slice (all states
this development evaluates keep the list sorted descending, hence
partitioned for the predicates used). -/

structure MetalAllocator where
  bufferHead : ℕ
  returnedIndices : List ℕ
  deriving Repr, DecidableEq

def MetalAllocator.new : MetalAllocator :=
  { bufferHead := 0, returnedIndices := [] }

/-- `partition_point(|&x| x > index)` on the returned-indices slice. -/
def partitionPointGT (l : List ℕ) (index : ℕ) : ℕ :=
  (l.takeWhile fun x => index < x).length

/-- The loop body of `reduce_head`: scan positions from the back, and every
time `returned_indices[i] == buffer_head - 1` record the position and
decrement the head.  Returns the updated head and the recorded position. -/
def reduceHeadScan (returned : List ℕ) : ℕ → ℕ → Option ℕ → ℕ × Option ℕ
  | 0, head, pp => (head, pp)
  | i + 1, head, pp =>
    if returned.getD i 0 = head - 1 then
      reduceHeadScan returned i (head - 1) (some i)
    else
      reduceHeadScan returned i head pp

/-- `MetalAllocator::reduce_head` (the only effective part of `compact`).
The `assert_eq!(self.buffer_head, self.returned_indices[i])` panic is
modelled by `none`. -/
def MetalAllocator.reduceHead (s : MetalAllocator) : Option MetalAllocator :=
  match reduceHeadScan s.returnedIndices s.returnedIndices.length
      s.bufferHead none with
  | (head, none) => some { s with bufferHead := head }
  | (head, some i) =>
    if head = s.returnedIndices.getD i 0 then
      some { bufferHead := head, returnedIndices := s.returnedIndices.drop (i + 1) }
    else
      none

/-- `MetalAllocator::insert`: pop a returned index, or hand out a fresh
`buffer_head`; the post-increment `assert!(buffer_head < SIZE)` is modelled
by `none`. -/
def MetalAllocator.insert (SIZE : ℕ) (s : MetalAllocator) :
    Option (ℕ × MetalAllocator) :=
  match s.returnedIndices.getLast? with
  | some i => some (i, { s with returnedIndices := s.returnedIndices.dropLast })
  | none =>
    let i := s.bufferHead
    let head := s.bufferHead + 1
    if head < SIZE then some (i, { s with bufferHead := head }) else none

/-- `MetalAllocator::remove`: insert `index` at the partition point unless
the partition point (a position!) equals `buffer_head - 1`, in which case
only the head is decremented; then `compact`. -/
def MetalAllocator.remove (s : MetalAllocator) (index : ℕ) :
    Option MetalAllocator :=
  let idx := partitionPointGT s.returnedIndices index
  let s' :=
    if idx = s.bufferHead - 1 then
      { s with bufferHead := s.bufferHead - 1 }
    else
      { s with returnedIndices := s.returnedIndices.insertIdx idx index }
  s'.reduceHead

/-! ### Allocate/free operation sequences

An operation sequence is run while tracking the live (currently-allocated)
index list, in allocation order.  A `free` of an index that is not currently
live is rejected (`none`): this encodes the claims' precondition that no
index is freed while unallocated. -/

inductive AllocOp where
  | ins : AllocOp
  | rem : ℕ → AllocOp
  deriving Repr, DecidableEq

def runBasicStep (st : StackBufferAllocator × List ℕ) (op : AllocOp) :
    Option (StackBufferAllocator × List ℕ) :=
  match op with
  | .ins =>
    let r := st.1.insert
    some (r.2, st.2 ++ [r.1])
  | .rem i =>
    if i ∈ st.2 then some (st.1.remove i, st.2.erase i) else none

def runBasicFrom : List AllocOp → StackBufferAllocator × List ℕ →
    Option (StackBufferAllocator × List ℕ)
  | [], st => some st
  | op :: rest, st =>
    match runBasicStep st op with
    | some st' => runBasicFrom rest st'
    | none => none

/-- Run a sequence of operations on the plain allocator from the initial
state, tracking the live list; `none` if some free targets a non-live
index. -/
def runBasic (ops : List AllocOp) : Option (StackBufferAllocator × List ℕ) :=
  runBasicFrom ops (StackBufferAllocator.new, [])

def runMetalStep (SIZE : ℕ) (st : MetalAllocator × List ℕ) (op : AllocOp) :
    Option (MetalAllocator × List ℕ) :=
  match op with
  | .ins =>
    match MetalAllocator.insert SIZE st.1 with
    | some (i, s') => some (s', st.2 ++ [i])
    | none => none
  | .rem i =>
    if i ∈ st.2 then
      match st.1.remove i with
      | some s' => some (s', st.2.erase i)
      | none => none
    else none

def runMetalFrom (SIZE : ℕ) : List AllocOp → MetalAllocator × List ℕ →
    Option (MetalAllocator × List ℕ)
  | [], st => some st
  | op :: rest, st =>
    match runMetalStep SIZE st op with
    | some st' => runMetalFrom SIZE rest st'
    | none => none

/-- Run a sequence of operations on the metal-renderer allocator. -/
def runMetal (SIZE : ℕ) (ops : List AllocOp) :
    Option (MetalAllocator × List ℕ) :=
  runMetalFrom SIZE ops (MetalAllocator.new, [])

/-! ## Geometry (nalgebra / raylib vector operations over ℝ)

`f32` vectors are modelled with real components.  `Vec3` plays the role of
both `Vector3<f32>` and `Point3<f32>`. -/

structure Vec3 where
  x : ℝ
  y : ℝ
  z : ℝ

namespace Vec3

noncomputable def add (a b : Vec3) : Vec3 := ⟨a.x + b.x, a.y + b.y, a.z + b.z⟩

noncomputable def sub (a b : Vec3) : Vec3 := ⟨a.x - b.x, a.y - b.y, a.z - b.z⟩

noncomputable def scale (a : Vec3) (k : ℝ) : Vec3 := ⟨a.x * k, a.y * k, a.z * k⟩

noncomputable def dot (a b : Vec3) : ℝ := a.x * b.x + a.y * b.y + a.z * b.z

noncomputable def cross (a b : Vec3) : Vec3 :=
  ⟨a.y * b.z - a.z * b.y, a.z * b.x - a.x * b.z, a.x * b.y - a.y * b.x⟩

/-- `Vector3::magnitude` (Euclidean norm). -/
noncomputable def magnitude (a : Vec3) : ℝ := Real.sqrt (a.dot a)

/-- `Vector3::normalize`: divide by the magnitude. -/
noncomputable def normalize (a : Vec3) : Vec3 := a.scale (1 / a.magnitude)

/-- `Vector3::distance_to`. -/
noncomputable def distanceTo (a b : Vec3) : ℝ := (a.sub b).magnitude

def zero : Vec3 := ⟨0, 0, 0⟩

end Vec3

/-! ## Spatial index: kd-tree (src/src/spatial_indexer/kd_indexer.rs)

The item arena is a total function `ℕ → Vec3` giving the position of every
index (callers instantiate it with `fun i => (particles i).position` or with
`List.getD`-lookups). -/

/-- `KD_LEAF_SIZE`. -/
def KD_LEAF_SIZE : ℕ := 100

inductive SplitAxis where
  | X | Y | Z
  deriving Repr, DecidableEq

def SplitAxis.next : SplitAxis → SplitAxis
  | .X => .Y
  | .Y => .Z
  | .Z => .X

/-- `SplitAxis::component`. -/
def SplitAxis.component : SplitAxis → Vec3 → ℝ
  | .X, v => v.x
  | .Y, v => v.y
  | .Z, v => v.z

inductive KdTree where
  | Leaf : List ℕ → KdTree
  | Node : SplitAxis → ℝ → KdTree → KdTree → KdTree

open Classical

/-- `_split`: the midpoint is the mean of the components; the drain loop
pushes an index to the *right* child when its component is `< midpoint` and
to the *left* child otherwise, preserving the original order on each side
(embedded with `List.filter`). -/
noncomputable def splitMid (arena : ℕ → Vec3) (items : List ℕ)
    (axis : SplitAxis) : ℝ :=
  (items.foldl (fun total idx => total + axis.component (arena idx)) 0) /
    (items.length : ℝ)

noncomputable def splitFn (arena : ℕ → Vec3) (items : List ℕ)
    (axis : SplitAxis) : ℝ × List ℕ × List ℕ :=
  let midpoint := splitMid arena items axis
  (midpoint,
    items.filter fun idx => decide (¬ axis.component (arena idx) < midpoint),
    items.filter fun idx => decide (axis.component (arena idx) < midpoint))

/-- `_construct` as a big-step relation: `Builds arena items axis tree`
holds exactly when a (terminating) run of `_construct` on `items` with
split axis `axis` can return `tree`.  (`_construct` recurses without a
structural termination measure — on pathological inputs, e.g. ≥ 100
identical points, the source loops forever — so the graph of the function
is used.) -/
inductive Builds (arena : ℕ → Vec3) : List ℕ → SplitAxis → KdTree → Prop
  | leaf {items : List ℕ} {axis : SplitAxis} (h : items.length < KD_LEAF_SIZE) :
      Builds arena items axis (.Leaf items)
  | node {items : List ℕ} {axis : SplitAxis} {tl tr : KdTree}
      (h : ¬ items.length < KD_LEAF_SIZE)
      (hl : Builds arena (splitFn arena items axis).2.1 axis.next tl)
      (hr : Builds arena (splitFn arena items axis).2.2 axis.next tr) :
      Builds arena items axis
        (.Node axis (splitFn arena items axis).1 tl tr)

/-- Fuel-bounded functional version of `_construct`, used where a tree value
is needed (`reindex`).  On inputs where the source terminates, size strictly
decreases at least every third level, so `3·|items| + 3` fuel is enough; on
fuel exhaustion (inputs where the source recurses forever) a leaf is
returned. -/
noncomputable def constructFuel (arena : ℕ → Vec3) :
    ℕ → List ℕ → SplitAxis → KdTree
  | 0, items, _ => .Leaf items
  | fuel + 1, items, axis =>
    if items.length < KD_LEAF_SIZE then .Leaf items
    else
      let s := splitFn arena items axis
      .Node axis s.1 (constructFuel arena fuel s.2.1 axis.next)
        (constructFuel arena fuel s.2.2 axis.next)

noncomputable def construct (arena : ℕ → Vec3) (items : List ℕ)
    (axis : SplitAxis) : KdTree :=
  constructFuel arena (3 * items.length + 3) items axis

/-- The indices stored in a tree, left to right. -/
def elems : KdTree → List ℕ
  | .Leaf l => l
  | .Node _ _ left right => elems left ++ elems right

/-- The routing invariant maintained by `_construct` and
`_insert_item_index`: in every node, the left subtree holds only indices
whose component is `≥ midpoint` and the right subtree only indices whose
component is `< midpoint`. -/
inductive WF (arena : ℕ → Vec3) : KdTree → Prop
  | leaf (l : List ℕ) : WF arena (.Leaf l)
  | node {axis : SplitAxis} {m : ℝ} {left right : KdTree}
      (hwl : WF arena left) (hwr : WF arena right)
      (hleft : ∀ j ∈ elems left, ¬ axis.component (arena j) < m)
      (hright : ∀ j ∈ elems right, axis.component (arena j) < m) :
      WF arena (.Node axis m left right)

/-- `_get_indices_within`: collect, in traversal order, the indices whose
position lies within `radius` of `origin`; a child is visited only when the
origin's component is within `radius` of the split plane on its side. -/
noncomputable def getIndicesWithin (arena : ℕ → Vec3) :
    KdTree → Vec3 → ℝ → List ℕ
  | .Leaf l, origin, radius =>
    l.filter fun idx => decide ((arena idx).distanceTo origin ≤ radius)
  | .Node axis m left right, origin, radius =>
    (if axis.component origin + radius ≥ m then
      getIndicesWithin arena left origin radius
     else []) ++
    (if axis.component origin - radius < m then
      getIndicesWithin arena right origin radius
     else [])

/-- `_any_indices_within`. -/
noncomputable def anyIndicesWithin (arena : ℕ → Vec3) :
    KdTree → Vec3 → ℝ → Bool
  | .Leaf l, origin, radius =>
    l.any fun idx => decide ((arena idx).distanceTo origin ≤ radius)
  | .Node axis m left right, origin, radius =>
    (decide (axis.component origin + radius ≥ m) &&
      anyIndicesWithin arena left origin radius) ||
    (decide (axis.component origin - radius < m) &&
      anyIndicesWithin arena right origin radius)

/-- `_insert_item_index`: route to the leaf by midpoint comparisons (the
right child receives components `< midpoint`), append there, and split the
leaf on the parent axis' successor when it reaches `KD_LEAF_SIZE`. -/
noncomputable def insertItemIndex (arena : ℕ → Vec3) :
    KdTree → SplitAxis → ℕ → KdTree
  | .Leaf l, parentAxis, index =>
    let l' := l ++ [index]
    if l'.length ≥ KD_LEAF_SIZE then
      let axis := parentAxis.next
      let s := splitFn arena l' axis
      .Node axis s.1 (.Leaf s.2.1) (.Leaf s.2.2)
    else .Leaf l'
  | .Node axis m left right, _, index =>
    if axis.component (arena index) < m then
      .Node axis m left (insertItemIndex arena right axis index)
    else
      .Node axis m (insertItemIndex arena left axis index) right

/-- The position of the last occurrence of `index` in a leaf's list: the
source scans the whole list, overwriting `index_index` at each match, so the
final value is the last matching position; `-1`, i.e. "never matched", is
`none`.  (The recursion prefers a match in the tail, which is exactly the
last-occurrence semantics of the scan.) -/
def lastIdxOf : List ℕ → ℕ → Option ℕ
  | [], _ => none
  | a :: l, x =>
    match lastIdxOf l x with
    | some k => some (k + 1)
    | none => if a = x then some 0 else none

/-- `_remove_item_index`: route to the leaf by the removed index's position,
remove the last occurrence there.  Panics — modelled by `none` — when the
index is absent from the routed leaf (`Vec::remove(-1 as usize)` is out of
bounds) or when the removal leaves the leaf empty
(`panic!("handle empty leaf!")`). -/
noncomputable def removeItemIndex (arena : ℕ → Vec3) :
    KdTree → ℕ → Option KdTree
  | .Leaf l, index =>
    match lastIdxOf l index with
    | none => none
    | some k =>
      let l' := l.eraseIdx k
      if l'.length = 0 then none else some (.Leaf l')
  | .Node axis m left right, index =>
    if axis.component (arena index) < m then
      (removeItemIndex arena right index).map (fun r => .Node axis m left r)
    else
      (removeItemIndex arena left index).map (fun l => .Node axis m l right)

/-- The leaf reached by routing `index`'s position through the tree. -/
noncomputable def routedLeaf (arena : ℕ → Vec3) : KdTree → ℕ → List ℕ
  | .Leaf l, _ => l
  | .Node axis m left right, index =>
    if axis.component (arena index) < m then routedLeaf arena right index
    else routedLeaf arena left index

/-- Replace the contents of the leaf reached by routing `index` through the
tree, leaving everything else untouched (specification helper used to state
that `_remove_item_index` changes nothing but the routed leaf). -/
noncomputable def replaceRoutedLeaf (arena : ℕ → Vec3) :
    KdTree → ℕ → List ℕ → KdTree
  | .Leaf _, _, newLeaf => .Leaf newLeaf
  | .Node axis m left right, index, newLeaf =>
    if axis.component (arena index) < m then
      .Node axis m left (replaceRoutedLeaf arena right index newLeaf)
    else
      .Node axis m (replaceRoutedLeaf arena left index newLeaf) right

/-- Occurrences of an index over the whole tree. -/
def countOcc (t : KdTree) (index : ℕ) : ℕ := (elems t).count index

/-- A small concrete arena (index `n` sits at `(n, 0, 0)`) used by witnesses. -/
noncomputable def arenaW : ℕ → Vec3 := fun n => ⟨(n : ℝ), 0, 0⟩

/-! ## Relaxation engine (src/src/surfaces/live_sampling.rs)

Constants of the source, as exact rationals. -/

noncomputable def REPULSION_AMPLITUDE : ℝ := 6
noncomputable def FEEDBACK : ℝ := 15
noncomputable def NEIGHBOUR_RADIUS : ℝ := 3
def UPDATE_ITERATIONS : ℕ := 4
noncomputable def ITERATION_T_STEP : ℝ := 3 / 100
noncomputable def EQUILIBRIUM_SPEED : ℝ := 100
noncomputable def FISSION_COEFFICIENT : ℝ := 1 / 5
noncomputable def DEATH_COEFFICIENT : ℝ := 7 / 10
noncomputable def MAX_RADIUS_COEFFICIENT : ℝ := 6 / 5
noncomputable def DESIRED_REPULSION_ENERGY : ℝ := REPULSION_AMPLITUDE * (8 / 10)

/-- The forward-difference step `h = 0.0001` of `gradient`. -/
noncomputable def GRAD_H : ℝ := 1 / 10000

/-- `f32::EPSILON = 2⁻²³`, the `on_surface` tolerance. -/
noncomputable def EPS : ℝ := 1 / 8388608

/-- `gradient(surface, p)`: forward differences along each axis. -/
noncomputable def gradientS (surface : Vec3 → ℝ) (p : Vec3) : Vec3 :=
  ⟨(surface ⟨p.x + GRAD_H, p.y, p.z⟩ - surface p) / GRAD_H,
   (surface ⟨p.x, p.y + GRAD_H, p.z⟩ - surface p) / GRAD_H,
   (surface ⟨p.x, p.y, p.z + GRAD_H⟩ - surface p) / GRAD_H⟩

/-- `on_surface(surface, p)`: `|f(p)| ≤ f32::EPSILON`. -/
def onSurface (surface : Vec3 → ℝ) (p : Vec3) : Prop := |surface p| ≤ EPS

/-- `energy_contribution(i_repulsion_radius, i, j)`:
`α · exp(−‖i−j‖² / (2·rᵢ)²)`. -/
noncomputable def energyContribution (iRepulsionRadius : ℝ) (i j : Vec3) : ℝ :=
  REPULSION_AMPLITUDE *
    Real.exp (-((i.sub j).magnitude ^ 2 / (2 * iRepulsionRadius) ^ 2))

/-- `constrain_to_surface` of live_sampling.rs: the `t` parameter is unused
by the source body, which reads the stored normal. -/
noncomputable def constrainToSurface (surface : Vec3 → ℝ) (t : ℝ)
    (position normal velocity : Vec3) : Vec3 :=
  velocity.sub
    (normal.scale
      ((normal.dot velocity + FEEDBACK * surface position) / normal.dot normal))

/-- `should_die(radius, desired_radius)` with the uniform draw made an
explicit argument `u`. -/
def shouldDie (radius desiredRadius u : ℝ) : Prop :=
  radius < desiredRadius * DEATH_COEFFICIENT ∧
    u > radius / (desiredRadius * DEATH_COEFFICIENT)

/-- `should_fission_radius(radius, desired_radius)`. -/
def shouldFissionRadius (radius desiredRadius : ℝ) : Prop :=
  radius > desiredRadius * MAX_RADIUS_COEFFICIENT

/-- `should_fission_energy(radius, energy, desired_radius)`. -/
def shouldFissionEnergy (radius energy desiredRadius : ℝ) : Prop :=
  energy > DESIRED_REPULSION_ENERGY * FISSION_COEFFICIENT ∧
    radius > desiredRadius

structure Particle where
  position : Vec3
  velocity : Vec3
  normal : Vec3
  radius : ℝ

/-- The engine state a sub-step works on.  The two `rand` sources of the
source (`rand::random::<f32>()` in `should_die` and `random_velocity()` at
fission) are modelled by oracle streams with consumption counters. -/
structure Core where
  a : ℕ → Particle
  b : ℕ → Particle
  living : List ℕ
  alloc : StackBufferAllocator
  randF : ℕ → ℝ
  ctrF : ℕ
  randV : ℕ → Vec3
  ctrV : ℕ
  index : KdTree

/-- The cached neighbour triples `(j, E(i←j), E(j←i))` gathered for arena
index `i`: spatial query at the particle's position with radius `ν·rᵢ`,
excluding `i` itself. -/
noncomputable def neighboursAt (c : Core) (i : ℕ) : List (ℕ × ℝ × ℝ) :=
  let particle := c.a i
  let neighbourIndices := getIndicesWithin (fun k => (c.a k).position)
    c.index particle.position (NEIGHBOUR_RADIUS * particle.radius)
  (neighbourIndices.filter fun j => j ≠ i).map fun j =>
    (j,
      energyContribution particle.radius particle.position (c.a j).position,
      energyContribution (c.a j).radius (c.a j).position particle.position)

/-- `repulsion_energy`: sum of the `E(i←j)` components. -/
noncomputable def repulsionEnergy (neighbours : List (ℕ × ℝ × ℝ)) : ℝ :=
  (neighbours.map fun n => n.2.1).sum

/-- `particle_radius(position, radius, repulsion_energy, neighbours)`.  Note
the `position` argument: the caller passes the sub-step's *updated*
position. -/
noncomputable def particleRadius (c : Core) (position : Vec3)
    (radius repulsionEnergyArg : ℝ) (neighbours : List (ℕ × ℝ × ℝ)) : ℝ :=
  let reDelta := -(FEEDBACK * (repulsionEnergyArg - DESIRED_REPULSION_ENERGY))
  let diAi := (1 / radius ^ 3) *
    (neighbours.map fun n =>
      ((position.sub (c.a n.1).position).magnitude ^ 2) * n.2.1).sum
  let radiusDelta := reDelta / (diAi + 10)
  radius + radiusDelta * ITERATION_T_STEP

/-- Component-wise division of a vector by a scalar (`Vector3 / f32`). -/
noncomputable def Vec3.divS (a : Vec3) (k : ℝ) : Vec3 :=
  ⟨a.x / k, a.y / k, a.z / k⟩

/-- `particle_velocity(position, radius, neighbours)`. -/
noncomputable def particleVelocity (c : Core) (position : Vec3) (radius : ℝ)
    (neighbours : List (ℕ × ℝ × ℝ)) : Vec3 :=
  (neighbours.foldl
    (fun dv n =>
      let rij := position.sub (c.a n.1).position
      let rei := (rij.divS (radius ^ 2)).scale n.2.1
      let rej := (rij.divS ((c.a n.1).radius ^ 2)).scale n.2.2
      dv.add (rei.add rej))
    Vec3.zero).scale (radius ^ 2)

inductive Outcome where
  | death | fission | move
  deriving Repr, DecidableEq

/-- The equilibrium test and death/fission decision structure of the
per-particle loop body: a particle at equilibrium speed
(`‖v‖ < vₑ·r`) first tries death, then fission
(`should_fission_energy || should_fission_radius`); otherwise it takes the
regular move path. -/
noncomputable def stepOutcome (particle : Particle)
    (energy u desiredRadius : ℝ) : Outcome :=
  if particle.velocity.magnitude < EQUILIBRIUM_SPEED * particle.radius then
    if shouldDie particle.radius desiredRadius u then .death
    else if shouldFissionEnergy particle.radius energy desiredRadius ∨
        shouldFissionRadius particle.radius desiredRadius then .fission
    else .move
  else .move

/-- The loop body of `update` for loop position `j` (arena index
`i = living[j]`).  Death removes position `j` from the live list and frees
slot `i`; fission writes the first child over `B[i]`, allocates a slot for
the sibling, writes it, and appends the slot to the live list; the move path
writes the constrained velocity, stepped position, refreshed normal and
adapted radius to `B[i]`.  The `rand` float counter advances exactly when
the source's short-circuit `&&` reaches `rand::random()` (equilibrium and
radius below the death radius). -/
noncomputable def processParticle (surface : Vec3 → ℝ) (t desiredRadius : ℝ)
    (c : Core) (j : ℕ) : Core :=
  let i := c.living.getD j 0
  let particle := c.a i
  let neighbours := neighboursAt c i
  let energy := repulsionEnergy neighbours
  let u := c.randF c.ctrF
  let ctrF' :=
    if particle.velocity.magnitude < EQUILIBRIUM_SPEED * particle.radius ∧
        particle.radius < desiredRadius * DEATH_COEFFICIENT then
      c.ctrF + 1
    else c.ctrF
  match stepOutcome particle energy u desiredRadius with
  | .death =>
    { c with living := c.living.eraseIdx j, alloc := c.alloc.remove i,
             ctrF := ctrF' }
  | .fission =>
    let position := particle.position
    let radius := particle.radius
    let newRadius := radius / Real.sqrt 2
    let newVelocity := (c.randV c.ctrV).normalize.scale radius
    let newPosition := position.add newVelocity
    let child : Particle :=
      ⟨newPosition, Vec3.zero, (gradientS surface newPosition).normalize,
        newRadius⟩
    let siblingPosition := position.sub newVelocity
    let sibling : Particle :=
      ⟨siblingPosition, Vec3.zero,
        (gradientS surface siblingPosition).normalize, newRadius⟩
    let r := c.alloc.insert
    { c with
      b := fun k => if k = r.1 then sibling else if k = i then child else c.b k,
      living := c.living ++ [r.1],
      alloc := r.2,
      ctrF := ctrF',
      ctrV := c.ctrV + 1 }
  | .move =>
    let velocity := constrainToSurface surface t particle.position
      particle.normal
      (particleVelocity c particle.position particle.radius neighbours)
    let position := particle.position.add (velocity.scale ITERATION_T_STEP)
    let normal := (gradientS surface position).normalize
    let radius := particleRadius c position particle.radius energy neighbours
    { c with
      b := fun k =>
        if k = i then ⟨position, velocity, normal, radius⟩ else c.b k,
      ctrF := ctrF' }

/-- The inner loop `for j in (0..living.len()).rev()`: the bound is read
once, before any mutation, and `j` counts down; removals at position `j` and
appends at the end never disturb the positions `< j` still to be visited. -/
noncomputable def substepAux (surface : Vec3 → ℝ) (t desiredRadius : ℝ) :
    Core → ℕ → Core
  | c, 0 => c
  | c, j + 1 => substepAux surface t desiredRadius
      (processParticle surface t desiredRadius c j) j

/-- One sub-step: process every live index (in reverse), then swap the
buffers and rebuild the spatial index over the new front buffer restricted
to the live list. -/
noncomputable def substepFn (surface : Vec3 → ℝ) (t desiredRadius : ℝ)
    (c : Core) : Core :=
  let c' := substepAux surface t desiredRadius c c.living.length
  { c' with
    a := c'.b,
    b := c'.a,
    index := construct (fun k => (c'.b k).position) c'.living SplitAxis.X }

/-- The full engine state: the core plus the simulation time `t`. -/
structure SState where
  core : Core
  t : ℝ

noncomputable def updateLoop (surface : Vec3 → ℝ) (t desiredRadius : ℝ) :
    ℕ → Core → Core
  | 0, c => c
  | n + 1, c => updateLoop surface t desiredRadius n
      (substepFn surface t desiredRadius c)

/-- `SamplingSystem::update`: `UPDATE_ITERATIONS` sub-steps, then — once,
after the loop — `t += ITERATION_T_STEP`. -/
noncomputable def updateModel (surface : Vec3 → ℝ) (desiredRadius : ℝ)
    (s : SState) : SState :=
  { core := updateLoop surface s.t desiredRadius UPDATE_ITERATIONS s.core,
    t := s.t + ITERATION_T_STEP }

/-- The radius formula of the claim, with the distance base point an
explicit argument `pos`: `r + Δt · (−φ·(E−E*)) / (D + 10)` with
`D = (1/r³)·Σⱼ ‖pos − pⱼ‖²·E(i←j)`. -/
noncomputable def claimRadiusFromPosition (c : Core) (pos : Vec3)
    (radius energy : ℝ) (neighbours : List (ℕ × ℝ × ℝ)) : ℝ :=
  radius + ITERATION_T_STEP *
    (-(FEEDBACK * (energy - DESIRED_REPULSION_ENERGY)) /
      ((1 / radius ^ 3) *
        (neighbours.map fun n =>
          ((pos.sub (c.a n.1).position).magnitude ^ 2) * n.2.1).sum + 10))

/-! ### Concrete fixtures for the relaxation-engine claims -/

/-- The test surface `f(p) = z + 1`. -/
noncomputable def surfW : Vec3 → ℝ := fun p => p.z + 1

/-- Particle 0 of the C3 fixture: at the origin, speed 1, radius 1/100 —
fast enough (`1 ≥ vₑ·r = 1`) to take the move path. -/
noncomputable def particleW0 : Particle :=
  ⟨⟨0, 0, 0⟩, ⟨1, 0, 0⟩, ⟨0, 0, 1⟩, 1 / 100⟩

/-- Particle 1 of the C3 fixture: also at the origin (distance 0 makes the
energy kernel exactly `α`). -/
noncomputable def particleW1 : Particle :=
  ⟨⟨0, 0, 0⟩, ⟨0, 0, 0⟩, ⟨0, 0, 1⟩, 1⟩

noncomputable def coreW : Core :=
  { a := fun k => if k = 0 then particleW0 else particleW1,
    b := fun k => if k = 0 then particleW0 else particleW1,
    living := [0, 1],
    alloc := ⟨2, []⟩,
    randF := fun _ => 1 / 2,
    ctrF := 0,
    randV := fun _ => ⟨1, 0, 0⟩,
    ctrV := 0,
    index := .Leaf [0, 1] }

/-- An engine state with an empty live set at `t = 0` (C9 fixture). -/
noncomputable def coreEmptyW : Core :=
  { a := fun _ => particleW1,
    b := fun _ => particleW1,
    living := [],
    alloc := ⟨0, []⟩,
    randF := fun _ => 1 / 2,
    ctrF := 0,
    randV := fun _ => ⟨1, 0, 0⟩,
    ctrV := 0,
    index := .Leaf [] }

noncomputable def sstateW : SState := ⟨coreEmptyW, 0⟩

/-! ## Seeding (src/src/surfaces/mod.rs `seed`)

The `Surface` trait there exposes `at(t, p)`; the random starting point of
the source is an explicit argument here.  The `gdg.is_nan()` check of the
source cannot fire in the real-number model (no NaN), so it is omitted; a
panic (`panic!("uh oh!")`) is an `Except.error`. -/

def SurfaceT : Type := ℝ → Vec3 → ℝ

/-- `gradient(surface, t, p)`: forward differences of `surface.at(t, ·)`. -/
noncomputable def gradientT (s : SurfaceT) (t : ℝ) (p : Vec3) : Vec3 :=
  ⟨(s t ⟨p.x + GRAD_H, p.y, p.z⟩ - s t p) / GRAD_H,
   (s t ⟨p.x, p.y + GRAD_H, p.z⟩ - s t p) / GRAD_H,
   (s t ⟨p.x, p.y, p.z + GRAD_H⟩ - s t p) / GRAD_H⟩

/-- `on_surface(surface, t, p)`. -/
def onSurfaceT (s : SurfaceT) (t : ℝ) (p : Vec3) : Prop := |s t p| ≤ EPS

/-- One Newton iteration of `seed`:
`p ← p − grad · (f(p) / (grad·grad))`. -/
noncomputable def newtonStepT (s : SurfaceT) (t : ℝ) (p : Vec3) : Vec3 :=
  let grad := gradientT s t p
  p.sub (grad.scale (s t p / grad.dot grad))

/-- The `for _ in 0..100` loop of `seed` with its early return, followed by
the post-loop `panic!("uh oh!")` when the final point is still off-surface
(the fuel counts the remaining iterations; the fuel-0 case is the post-loop
check, whose point was already checked by the last iteration). -/
noncomputable def seedLoop (s : SurfaceT) (t : ℝ) : ℕ → Vec3 → Except String Vec3
  | 0, p => if onSurfaceT s t p then .ok p else .error "uh oh!"
  | n + 1, p =>
    let pNext := newtonStepT s t p
    if onSurfaceT s t pNext then .ok pNext else seedLoop s t n pNext

/-- `seed(surface, t)` from the given starting point: 100 Newton
iterations. -/
noncomputable def seedFn (s : SurfaceT) (t : ℝ) (start : Vec3) :
    Except String Vec3 :=
  seedLoop s t 100 start

/-- The surface `f(t, p) = z² + 1`, whose field never crosses zero: Newton
iteration can never reach an on-surface point. -/
noncomputable def quadS : SurfaceT := fun _ p => p.z ^ 2 + 1

/-! ## Initial sampler (src/src/sampling.rs, src/src/plane.rs)

`sample(surface, seed, repulsion_radius)` with its hexagonal front
expansion.  `seed` is an explicit argument (the `sample` of sampling.rs);
the `panic!("Seed is not on the surface")` is modelled by `none`. -/

/-- `nalgebra`'s `imin()`: index of the (first) minimal component. -/
noncomputable def Vec3.imin (v : Vec3) : ℕ :=
  if v.y < v.x then (if v.z < v.y then 2 else 1)
  else (if v.z < v.x then 2 else 0)

/-- The cardinal vector built by `Plane::from_origin_normal`: a zero vector
with `1.0` written at component `idx`. -/
noncomputable def cardinalOf (idx : ℕ) : Vec3 :=
  if idx = 0 then ⟨1, 0, 0⟩ else if idx = 1 then ⟨0, 1, 0⟩ else ⟨0, 0, 1⟩

structure Plane where
  o : Vec3
  u : Vec3
  v : Vec3

/-- `Plane::from_origin_normal`. -/
noncomputable def Plane.fromOriginNormal (o n : Vec3) : Plane :=
  let cardinal := cardinalOf n.imin
  let u := (n.cross cardinal).normalize
  let v := (u.cross n).normalize
  ⟨o, u, v⟩

/-- `Plane::from(p)` for a 2-d point with coordinates `px`, `py`. -/
noncomputable def Plane.fromCoords (plane : Plane) (px py : ℝ) : Vec3 :=
  (plane.o.add (plane.u.scale px)).add (plane.v.scale py)

/-- One iteration of `refine_point`'s loop: pull toward the surface with a
Newton step, then push away from the parent up to distance `2·radius`. -/
noncomputable def refineStep (surface : Vec3 → ℝ) (radius : ℝ)
    (parent point : Vec3) : Vec3 :=
  let grad := gradientS surface point
  let pulled := point.sub (grad.scale (surface point / grad.dot grad))
  let away := pulled.sub parent
  if away.magnitude < radius * 2 then
    pulled.add (away.scale (radius * 2 - away.magnitude))
  else pulled

/-- The `for _ in 0..10` loop of `refine_point` with its early `break` on
`on_surface`; when the fuel runs out the current point is returned whether
or not it is on the surface. -/
noncomputable def refineLoop (surface : Vec3 → ℝ) (radius : ℝ)
    (parent : Vec3) : ℕ → Vec3 → Vec3
  | 0, point => point
  | n + 1, point =>
    let p2 := refineStep surface radius parent point
    if onSurface surface p2 then p2 else refineLoop surface radius parent n p2

/-- `refine_point(surface, radius, parent, guess)`: 10 iterations. -/
noncomputable def refinePoint (surface : Vec3 → ℝ) (radius : ℝ)
    (parent guess : Vec3) : Vec3 :=
  refineLoop surface radius parent 10 guess

/-- `sibling_points(surface, parent, repulsion_radius)`: the six refined
hexagon guesses on the tangent plane, in angular order `i = 0..5`. -/
noncomputable def siblingPoints (surface : Vec3 → ℝ)
    (parent : Vec3) (repulsionRadius : ℝ) : List Vec3 :=
  let normal := (gradientS surface parent).normalize
  let tangentPlane := Plane.fromOriginNormal parent normal
  (List.range 6).map fun (i : ℕ) =>
    let ipi3 := ((i : ℝ) * Real.pi) / 3
    let pointGuess := tangentPlane.fromCoords
      (Real.cos ipi3 * (repulsionRadius * 2))
      (Real.sin ipi3 * (repulsionRadius * 2))
    refinePoint surface repulsionRadius parent pointGuess

/-- Read a `Vec<Vector3>` as an arena function. -/
noncomputable def arenaOfList (items : List Vec3) : ℕ → Vec3 :=
  fun i => items.getD i Vec3.zero

/-- `KdContainer`: owned points plus a kd-tree of indices into them. -/
structure KdContainer where
  items : List Vec3
  tree : KdTree

noncomputable def KdContainer.new : KdContainer := ⟨[], .Leaf []⟩

/-- `KdContainer::push`: append the point, then insert its index
(`items.len() - 1`) into the tree. -/
noncomputable def KdContainer.push (c : KdContainer) (point : Vec3) :
    KdContainer :=
  let items := c.items ++ [point]
  ⟨items, insertItemIndex (arenaOfList items) c.tree SplitAxis.X
    (items.length - 1)⟩

/-- `KdContainer::append`. -/
noncomputable def KdContainer.append (c : KdContainer) (points : List Vec3) :
    KdContainer :=
  points.foldl KdContainer.push c

/-- `KdContainer::any_items_in_radius`. -/
noncomputable def KdContainer.anyItemsInRadius (c : KdContainer)
    (point : Vec3) (radius : ℝ) : Bool :=
  anyIndicesWithin (arenaOfList c.items) c.tree point radius

/-- The `while let Some(next_seed) = untreated.pop()` front-expansion loop:
pop the most recently pushed untreated point, test each of its six siblings
against all accepted points within `1.9·ρ`, and accept survivors into both
the container and the untreated stack.  Fuel exhaustion is `none`. -/
noncomputable def sampleFoldStep (repulsionRadius : ℝ) :
    KdContainer × List Vec3 → Vec3 → KdContainer × List Vec3 :=
  fun st point =>
    if st.1.anyItemsInRadius point (repulsionRadius * 1.9) then st
    else (st.1.push point, st.2 ++ [point])

noncomputable def sampleLoop (surface : Vec3 → ℝ) (repulsionRadius : ℝ) :
    ℕ → KdContainer → List Vec3 → Option (List Vec3)
  | 0, _, _ => none
  | fuel + 1, samples, untreated =>
    match untreated.getLast? with
    | none => some samples.items
    | some nextSeed =>
      let st := (siblingPoints surface nextSeed repulsionRadius).foldl
        (sampleFoldStep repulsionRadius) (samples, untreated.dropLast)
      sampleLoop surface repulsionRadius fuel st.1 st.2

/-- `sample(surface, seed, repulsion_radius)`: panics (`none`) when the seed
is off-surface; otherwise accepts the six initial siblings unconditionally
and runs the front expansion. -/
noncomputable def sampleModel (surface : Vec3 → ℝ) (seed : Vec3)
    (repulsionRadius : ℝ) (fuel : ℕ) : Option (List Vec3) :=
  if ¬ onSurface surface seed then none
  else
    let initialSiblings := siblingPoints surface seed repulsionRadius
    let samples := KdContainer.new.append initialSiblings
    sampleLoop surface repulsionRadius fuel samples initialSiblings

/-! ### The counterexample surface for C4/C5

A scalar field (an ordinary closure, as any `impl Fn(Vector3<f32>) -> f32`
of the source may be) crafted so that, from the seed at the origin, every
initial sibling guess is Newton-pulled onto `(0,0,-5)` and then bounces on
the rootless 2-cycle `(0,0,-5) ↔ (0,0,-7)`, so the 10 refinement
iterations end off-surface at `(0,0,-7)`; the subsequent front expansion
terminates after accepting one further point.  The overrides are keyed on
the exact sample points of the forward-difference gradient. -/

noncomputable def surfC : Vec3 → ℝ := fun p =>
  if p.z = 0 ∧ p.x ^ 2 + p.y ^ 2 = 4 then 29
  else if p.z = 0 ∧ (p.x - GRAD_H) ^ 2 + p.y ^ 2 = 4 then
    29 + GRAD_H * (p.x - GRAD_H)
  else if p.z = 0 ∧ p.x ^ 2 + (p.y - GRAD_H) ^ 2 = 4 then
    29 + GRAD_H * (p.y - GRAD_H)
  else if p.z = GRAD_H ∧ p.x ^ 2 + p.y ^ 2 = 4 then 29 + GRAD_H * 5
  else if p.z = -5 ∧ p.x = 0 ∧ p.y = 0 then 2
  else if p.z = -5 ∧ p.x = GRAD_H ∧ p.y = 0 then 2
  else if p.z = -5 ∧ p.x = 0 ∧ p.y = GRAD_H then 2
  else if p.z = -5 + GRAD_H ∧ p.x = 0 ∧ p.y = 0 then 2 + GRAD_H
  else if p.z = -7 ∧ p.x ^ 2 + p.y ^ 2 = 4 then 4
  else if p.z = -7 ∧ (p.x - GRAD_H) ^ 2 + p.y ^ 2 = 4 then
    4 + GRAD_H * (p.x - GRAD_H)
  else if p.z = -7 ∧ p.x ^ 2 + (p.y - GRAD_H) ^ 2 = 4 then
    4 + GRAD_H * (p.y - GRAD_H)
  else if p.z = -7 + GRAD_H ∧ p.x ^ 2 + p.y ^ 2 = 4 then 4
  else if p.z = -7 ∧ p.x = 0 ∧ p.y = 0 then -2
  else if p.z = -7 ∧ p.x = GRAD_H ∧ p.y = 0 then -2
  else if p.z = -7 ∧ p.x = 0 ∧ p.y = GRAD_H then -2
  else if p.z = -7 + GRAD_H ∧ p.x = 0 ∧ p.y = 0 then -2 + GRAD_H
  else p.z

/-- The intermediate point `(0,0,-5)` of the counterexample cycle. -/
noncomputable def qC : Vec3 := ⟨0, 0, -5⟩

/-- The off-surface point `(0,0,-7)` all six initial siblings end on. -/
noncomputable def qC' : Vec3 := ⟨0, 0, -7⟩

/-- The full result of `sample(surfC, origin, 1)`: the six initial siblings
(all equal to `(0,0,-7)`) followed by the one accepted expansion point
`(0,0,-5)`. -/
noncomputable def sampleResC : List Vec3 := [qC', qC', qC', qC', qC', qC', qC]

/-- The kd-container after the six initial siblings are accepted. -/
noncomputable def sampleC0 : KdContainer :=
  ⟨List.replicate 6 qC', .Leaf [0, 1, 2, 3, 4, 5]⟩

/-- The kd-container after the expansion point `(0,0,-5)` is accepted. -/
noncomputable def sampleC1 : KdContainer :=
  ⟨List.replicate 6 qC' ++ [qC], .Leaf [0, 1, 2, 3, 4, 5, 6]⟩

/-! ## End of definitions, start of theorems -/

/-! ### Allocator lemmas and claims C7, C8 -/

/-- The state invariant tying a plain allocator to the list of live
(currently allocated) indices. -/
def BasicInv (s : StackBufferAllocator) (live : List ℕ) : Prop :=
  live.Nodup ∧ s.returnedIndices.Nodup ∧
    (∀ i ∈ live, i ∉ s.returnedIndices) ∧
    (∀ i ∈ live, i < s.bufferHead) ∧
    (∀ i ∈ s.returnedIndices, i < s.bufferHead)

theorem basicInv_new : BasicInv StackBufferAllocator.new [] := by
  refine ⟨List.nodup_nil, List.nodup_nil, ?_, ?_, ?_⟩ <;> simp [StackBufferAllocator.new]

theorem insert_pop {s : StackBufferAllocator} {i : ℕ}
    (hg : s.returnedIndices.getLast? = some i) :
    s.insert = (i, { s with returnedIndices := s.returnedIndices.dropLast }) := by
  unfold StackBufferAllocator.insert; rw [hg]

theorem insert_fresh {s : StackBufferAllocator}
    (hg : s.returnedIndices.getLast? = none) :
    s.insert = (s.bufferHead, { s with bufferHead := s.bufferHead + 1 }) := by
  unfold StackBufferAllocator.insert; rw [hg]

theorem basicInv_step {s : StackBufferAllocator} {live : List ℕ}
    {op : AllocOp} {s' : StackBufferAllocator} {live' : List ℕ}
    (hinv : BasicInv s live) (hstep : runBasicStep (s, live) op = some (s', live')) :
    BasicInv s' live' := by
  obtain ⟨hnl, hnr, hdisj, hlb, hrb⟩ := hinv
  cases op with
  | ins =>
    simp only [runBasicStep, Option.some.injEq, Prod.mk.injEq] at hstep
    obtain ⟨hs, hl⟩ := hstep
    rcases hg : s.returnedIndices.getLast? with _ | i
    · rw [insert_fresh hg] at hs hl
      simp only at hs hl
      subst hs; subst hl
      refine ⟨?_, hnr, ?_, ?_, ?_⟩
      · exact List.Nodup.append hnl (List.nodup_singleton _)
          (by simp only [List.disjoint_singleton]
              intro h; exact absurd (hlb _ h) (lt_irrefl _))
      · intro j hj
        rcases List.mem_append.mp hj with h | h
        · exact hdisj j h
        · simp only [List.mem_singleton] at h; subst h
          intro hmem; exact absurd (hrb _ hmem) (lt_irrefl _)
      · intro j hj
        rcases List.mem_append.mp hj with h | h
        · exact Nat.lt_succ_of_lt (hlb j h)
        · simp only [List.mem_singleton] at h; subst h; exact Nat.lt_succ_self _
      · intro j hj; exact Nat.lt_succ_of_lt (hrb j hj)
    · rw [insert_pop hg] at hs hl
      simp only at hs hl
      subst hs; subst hl
      have hi_mem : i ∈ s.returnedIndices := by
        have hd := List.dropLast_append_getLast? i hg
        rw [← hd]; simp
      have hi_not_drop : i ∉ s.returnedIndices.dropLast := by
        have hd := List.dropLast_append_getLast? i hg
        rw [← hd] at hnr
        have hdsj := List.disjoint_of_nodup_append hnr
        intro hm; exact hdsj hm (by simp)
      refine ⟨?_, hnr.sublist (List.dropLast_sublist _), ?_, ?_, ?_⟩
      · refine List.Nodup.append hnl (List.nodup_singleton _) ?_
        simp only [List.disjoint_singleton]
        intro h; exact (hdisj i h) hi_mem
      · intro j hj
        rcases List.mem_append.mp hj with h | h
        · intro hm; exact (hdisj j h) ((List.dropLast_sublist _).mem hm)
        · simp only [List.mem_singleton] at h; subst h; exact hi_not_drop
      · intro j hj
        rcases List.mem_append.mp hj with h | h
        · exact hlb j h
        · simp only [List.mem_singleton] at h; subst h; exact hrb _ hi_mem
      · intro j hj; exact hrb j ((List.dropLast_sublist _).mem hj)
  | rem k =>
    simp only [runBasicStep] at hstep
    by_cases hm : k ∈ live
    · rw [if_pos hm] at hstep
      simp only [Option.some.injEq, Prod.mk.injEq] at hstep
      obtain ⟨hs, hl⟩ := hstep
      subst hs; subst hl
      refine ⟨hnl.erase k, ?_, ?_, ?_, ?_⟩
      · unfold StackBufferAllocator.remove
        refine List.Nodup.append hnr (List.nodup_singleton _) ?_
        simp only [List.disjoint_singleton]
        intro h; exact (hdisj k hm) h
      · intro j hj
        have hjl : j ∈ live := List.mem_of_mem_erase hj
        unfold StackBufferAllocator.remove
        simp only [List.mem_append, List.mem_singleton]
        rintro (h | rfl)
        · exact (hdisj j hjl) h
        · exact hnl.not_mem_erase hj
      · intro j hj; exact hlb j (List.mem_of_mem_erase hj)
      · intro j hj
        unfold StackBufferAllocator.remove at hj
        rcases List.mem_append.mp hj with h | h
        · exact hrb j h
        · simp only [List.mem_singleton] at h; subst h; exact hlb _ hm
    · rw [if_neg hm] at hstep; exact absurd hstep (by simp)

theorem basicInv_run {ops : List AllocOp} {s : StackBufferAllocator}
    {live : List ℕ} (h : runBasic ops = some (s, live)) : BasicInv s live := by
  suffices H : ∀ (ops : List AllocOp) (st : StackBufferAllocator × List ℕ),
      BasicInv st.1 st.2 →
      runBasicFrom ops st = some (s, live) → BasicInv s live by
    exact H ops (StackBufferAllocator.new, []) basicInv_new h
  intro ops
  induction ops with
  | nil =>
    intro st h0 hrun
    simp only [runBasicFrom, Option.some.injEq] at hrun
    rw [hrun] at h0; exact h0
  | cons op rest ih =>
    intro st h0 hrun
    rcases hstep : runBasicStep st op with _ | st'
    · unfold runBasicFrom at hrun; rw [hstep] at hrun; simp at hrun
    · unfold runBasicFrom at hrun; rw [hstep] at hrun
      obtain ⟨s1, l1⟩ := st'
      exact ih (s1, l1) (basicInv_step h0 (by rw [← hstep])) hrun

theorem insertResults_returned (l : List ℕ) :
    ∀ h : ℕ, insertResults ⟨h, l⟩ l.length = l.reverse := by
  induction l using List.reverseRecOn with
  | nil => intro h; simp [insertResults]
  | append_singleton l a ih =>
    intro h
    have hg : (⟨h, l ++ [a]⟩ : StackBufferAllocator).returnedIndices.getLast?
        = some a := by simp
    rw [List.length_append, List.length_singleton]
    unfold insertResults
    rw [insert_pop hg]
    simp only [List.dropLast_concat]
    rw [ih h]
    simp

/-- Claim C7 (amended part): for every allocate/free sequence on the plain
stack allocator in which no index is freed while unallocated, the live
(currently-allocated) index list is duplicate-free after every operation,
and every freed index still pending in the allocator is returned by one of
the next `returned_indices.length` allocations.  (The original claim's third
part — that the allocator never hands out indices beyond the arena capacity
— fails; see the C7/C8 counterexamples.) -/
theorem C7_basic_allocator_inv {ops : List AllocOp}
    {s : StackBufferAllocator} {live : List ℕ}
    (h : runBasic ops = some (s, live)) :
    live.Nodup ∧
      ∀ i ∈ s.returnedIndices, i ∈ insertResults s s.returnedIndices.length := by
  refine ⟨(basicInv_run h).1, ?_⟩
  intro i hi
  have : insertResults s s.returnedIndices.length = s.returnedIndices.reverse := by
    have := insertResults_returned s.returnedIndices s.bufferHead
    exact this
  rw [this, List.mem_reverse]
  exact hi

/-- Witness for C7: a concrete valid operation sequence, with the theorem's
conclusion obtained from the theorem itself. -/
theorem C7_basic_allocator_inv_witness :
    ([1, 0] : List ℕ).Nodup ∧
      ∀ i ∈ (⟨2, []⟩ : StackBufferAllocator).returnedIndices,
        i ∈ insertResults ⟨2, []⟩ ([] : List ℕ).length :=
  @C7_basic_allocator_inv [.ins, .ins, .rem 0, .ins] ⟨2, []⟩ [1, 0] (by decide)

/-- Counterexample for C7: on the metal-renderer allocator, the valid
sequence allocate×3, free 1, free 2, free 0 corrupts the state through
`remove`'s comparison of a partition *position* against `buffer_head - 1`,
after which two successive allocations both return index 1: the set of
currently-allocated indices is no longer pairwise distinct. -/
theorem C7_counterexample :
    runMetal 4 [.ins, .ins, .ins, .rem 1, .rem 2, .rem 0, .ins, .ins] =
      some (⟨2, []⟩, [1, 1]) ∧ ¬ ([1, 1] : List ℕ).Nodup := by
  constructor
  · decide
  · decide

/-- Claim C8 (amended): `insert` on the plain allocator never fails and
returns the most recently freed index if one is pending, else the current
`buffer_head` — with no capacity check whatsoever; the metal-renderer
variant's `insert` fails (a failed `assert!`) exactly when no freed index is
pending and bumping the head would reach `SIZE`, i.e. already when the fresh
index `SIZE - 1` would be handed out. -/
theorem C8_insert_characterisation (SIZE : ℕ) (s : StackBufferAllocator)
    (m : MetalAllocator) :
    (s.insert.1 = s.returnedIndices.getLast?.getD s.bufferHead) ∧
      (MetalAllocator.insert SIZE m = none ↔
        m.returnedIndices = [] ∧ SIZE ≤ m.bufferHead + 1) := by
  constructor
  · unfold StackBufferAllocator.insert
    rcases hg : s.returnedIndices.getLast? with _ | i <;> simp [hg]
  · unfold MetalAllocator.insert
    rcases hg : m.returnedIndices.getLast? with _ | i
    · simp only
      constructor
      · intro h
        by_cases hlt : m.bufferHead + 1 < SIZE
        · rw [if_pos hlt] at h; exact absurd h (by simp)
        · exact ⟨List.getLast?_eq_none_iff.mp hg, Nat.le_of_not_lt hlt⟩
      · rintro ⟨_, hle⟩
        rw [if_neg (Nat.not_lt_of_le hle)]
    · simp only
      constructor
      · intro h; exact absurd h (by simp)
      · rintro ⟨hnil, _⟩
        rw [hnil] at hg; simp at hg

/-- Counterexample for C8: with capacity N = 2 and both slots in use, a
third `insert` on the plain allocator succeeds and returns index 2, outside
[0, N). -/
theorem C8_counterexample :
    (StackBufferAllocator.new.insert.2.insert.2.insert).1 = 2 ∧ ¬ (2 < 2) := by
  constructor
  · decide
  · decide

/-! ### Kd-tree lemmas and claims C1, C10 -/

theorem abs_component_le_magnitude (ax : SplitAxis) (v : Vec3) :
    |ax.component v| ≤ v.magnitude := by
  have h : ax.component v ^ 2 ≤ v.dot v := by
    cases ax <;>
      simp only [SplitAxis.component, Vec3.dot] <;>
      nlinarith [sq_nonneg v.x, sq_nonneg v.y, sq_nonneg v.z]
  calc |ax.component v| = Real.sqrt (ax.component v ^ 2) :=
        (Real.sqrt_sq_eq_abs _).symm
    _ ≤ Real.sqrt (v.dot v) := Real.sqrt_le_sqrt h

theorem abs_component_sub_le_distanceTo (ax : SplitAxis) (a b : Vec3) :
    |ax.component a - ax.component b| ≤ a.distanceTo b := by
  have h : ax.component a - ax.component b = ax.component (a.sub b) := by
    cases ax <;> simp [SplitAxis.component, Vec3.sub]
  rw [h]
  exact abs_component_le_magnitude ax (a.sub b)

theorem mem_splitFn_left {arena : ℕ → Vec3} {items : List ℕ} {ax : SplitAxis}
    {j : ℕ} :
    j ∈ (splitFn arena items ax).2.1 ↔
      j ∈ items ∧ ¬ ax.component (arena j) < (splitFn arena items ax).1 := by
  simp [splitFn, List.mem_filter]

theorem mem_splitFn_right {arena : ℕ → Vec3} {items : List ℕ} {ax : SplitAxis}
    {j : ℕ} :
    j ∈ (splitFn arena items ax).2.2 ↔
      j ∈ items ∧ ax.component (arena j) < (splitFn arena items ax).1 := by
  simp [splitFn, List.mem_filter]

theorem splitFn_perm (arena : ℕ → Vec3) (items : List ℕ) (ax : SplitAxis) :
    List.Perm ((splitFn arena items ax).2.1 ++ (splitFn arena items ax).2.2)
      items := by
  simp only [splitFn]
  have h := List.filter_append_perm
    (fun idx => decide (ax.component (arena idx) < splitMid arena items ax)) items
  refine List.Perm.trans ?_ h
  refine List.Perm.trans (List.perm_append_comm) ?_
  refine List.Perm.append_left _ ?_
  have hfn : (fun idx => decide (¬ ax.component (arena idx) < splitMid arena items ax))
      = (fun idx => !decide (ax.component (arena idx) < splitMid arena items ax)) := by
    funext idx; rw [decide_not]
  rw [hfn]

theorem elems_perm_of_builds {arena : ℕ → Vec3} {items : List ℕ}
    {ax : SplitAxis} {t : KdTree} (hb : Builds arena items ax t) :
    List.Perm (elems t) items := by
  induction hb with
  | leaf h => exact List.Perm.refl _
  | node h hl hr ihl ihr =>
    simp only [elems]
    exact List.Perm.trans (List.Perm.append ihl ihr) (splitFn_perm _ _ _)

theorem wf_of_builds {arena : ℕ → Vec3} {items : List ℕ} {ax : SplitAxis}
    {t : KdTree} (hb : Builds arena items ax t) : WF arena t := by
  induction hb with
  | leaf h => exact WF.leaf _
  | node h hl hr ihl ihr =>
    refine WF.node ihl ihr ?_ ?_
    · intro j hj
      have := (elems_perm_of_builds hl).mem_iff.mp hj
      exact (mem_splitFn_left.mp this).2
    · intro j hj
      have := (elems_perm_of_builds hr).mem_iff.mp hj
      exact (mem_splitFn_right.mp this).2

theorem mem_getIndicesWithin_of_wf {arena : ℕ → Vec3} {t : KdTree}
    (hw : WF arena t) (origin : Vec3) (radius : ℝ) (j : ℕ) :
    j ∈ getIndicesWithin arena t origin radius ↔
      j ∈ elems t ∧ (arena j).distanceTo origin ≤ radius := by
  induction hw with
  | leaf l => simp [getIndicesWithin, elems, List.mem_filter]
  | @node axis m left right hwl hwr hleft hright ihl ihr =>
    simp only [getIndicesWithin, elems, List.mem_append]
    constructor
    · intro hj
      rcases hj with hj | hj
      · by_cases hc : axis.component origin + radius ≥ m
        · rw [if_pos hc] at hj
          obtain ⟨hm, hd⟩ := ihl.mp hj
          exact ⟨Or.inl hm, hd⟩
        · rw [if_neg hc] at hj; exact absurd hj (List.not_mem_nil j)
      · by_cases hc : axis.component origin - radius < m
        · rw [if_pos hc] at hj
          obtain ⟨hm, hd⟩ := ihr.mp hj
          exact ⟨Or.inr hm, hd⟩
        · rw [if_neg hc] at hj; exact absurd hj (List.not_mem_nil j)
    · rintro ⟨hm | hm, hd⟩
      · have hcomp : ¬ axis.component (arena j) < m := hleft j hm
        have habs := abs_component_sub_le_distanceTo axis (arena j) origin
        have hc : axis.component origin + radius ≥ m := by
          have h1 : axis.component (arena j) - axis.component origin ≤ radius :=
            le_trans (le_abs_self _) (le_trans habs hd)
          push_neg at hcomp
          linarith
        exact Or.inl (by rw [if_pos hc]; exact ihl.mpr ⟨hm, hd⟩)
      · have hcomp : axis.component (arena j) < m := hright j hm
        have habs := abs_component_sub_le_distanceTo axis (arena j) origin
        have hc : axis.component origin - radius < m := by
          have hcm : |axis.component (arena j) - axis.component origin|
              = |axis.component origin - axis.component (arena j)| :=
            abs_sub_comm _ _
          have h2 : axis.component origin - axis.component (arena j) ≤
              |axis.component origin - axis.component (arena j)| := le_abs_self _
          rw [← hcm] at h2
          have h1 : axis.component origin - axis.component (arena j) ≤ radius :=
            le_trans h2 (le_trans habs hd)
          linarith
        exact Or.inr (by rw [if_pos hc]; exact ihr.mpr ⟨hm, hd⟩)

theorem nodup_getIndicesWithin_of_wf {arena : ℕ → Vec3} {t : KdTree}
    (hw : WF arena t) (hnd : (elems t).Nodup) (origin : Vec3) (radius : ℝ) :
    (getIndicesWithin arena t origin radius).Nodup := by
  induction hw with
  | leaf l => exact List.Nodup.filter _ hnd
  | @node axis m left right hwl hwr hleft hright ihl ihr =>
    simp only [elems] at hnd
    have hndl := hnd.of_append_left
    have hndr := hnd.of_append_right
    have hdisj : List.Disjoint (elems left) (elems right) :=
      List.disjoint_of_nodup_append hnd
    simp only [getIndicesWithin]
    refine List.Nodup.append ?_ ?_ ?_
    · split
      · exact ihl hndl
      · exact List.nodup_nil
    · split
      · exact ihr hndr
      · exact List.nodup_nil
    · intro a ha hb
      have hal : a ∈ elems left := by
        by_cases hc : axis.component origin + radius ≥ m
        · rw [if_pos hc] at ha
          exact ((mem_getIndicesWithin_of_wf hwl origin radius a).mp ha).1
        · rw [if_neg hc] at ha; exact absurd ha (List.not_mem_nil a)
      have har : a ∈ elems right := by
        by_cases hc : axis.component origin - radius < m
        · rw [if_pos hc] at hb
          exact ((mem_getIndicesWithin_of_wf hwr origin radius a).mp hb).1
        · rw [if_neg hc] at hb; exact absurd hb (List.not_mem_nil a)
      exact hdisj hal har

/-- Claim C1: for every snapshot (arena of positions) and every rebuild of
the kd-tree over a duplicate-free index list, `query_radius` returns exactly
the indexed indices whose position lies within `radius` of the centre
(inclusive), each at most once: the midpoint pruning misses no qualifying
index. -/
theorem C1_kd_query_radius_correct {arena : ℕ → Vec3} {items : List ℕ}
    {ax : SplitAxis} {t : KdTree} (hb : Builds arena items ax t)
    (hnd : items.Nodup) (origin : Vec3) (radius : ℝ) :
    (getIndicesWithin arena t origin radius).Nodup ∧
      ∀ j, j ∈ getIndicesWithin arena t origin radius ↔
        j ∈ items ∧ (arena j).distanceTo origin ≤ radius := by
  have hperm := elems_perm_of_builds hb
  have hw := wf_of_builds hb
  refine ⟨nodup_getIndicesWithin_of_wf hw (hperm.nodup_iff.mpr hnd) origin radius, ?_⟩
  intro j
  rw [mem_getIndicesWithin_of_wf hw origin radius j, hperm.mem_iff]

/-- Witness for C1 at a concrete build. -/
theorem C1_kd_query_radius_correct_witness :
    ([0, 1, 2] : List ℕ).length < KD_LEAF_SIZE ∧ ([0, 1, 2] : List ℕ).Nodup ∧
      ((getIndicesWithin arenaW (.Leaf [0, 1, 2]) Vec3.zero 1).Nodup ∧
        ∀ j, j ∈ getIndicesWithin arenaW (.Leaf [0, 1, 2]) Vec3.zero 1 ↔
          j ∈ ([0, 1, 2] : List ℕ) ∧ (arenaW j).distanceTo Vec3.zero ≤ 1) :=
  ⟨by decide, by decide,
    @C1_kd_query_radius_correct arenaW [0, 1, 2] SplitAxis.X (.Leaf [0, 1, 2])
      (@Builds.leaf arenaW [0, 1, 2] SplitAxis.X (by decide)) (by decide)
      Vec3.zero 1⟩

theorem lastIdxOf_eq_none_iff (l : List ℕ) (x : ℕ) :
    lastIdxOf l x = none ↔ x ∉ l := by
  induction l with
  | nil => simp [lastIdxOf]
  | cons a l ih =>
    simp only [lastIdxOf]
    rcases h : lastIdxOf l x with _ | k
    · have hxl : x ∉ l := ih.mp h
      by_cases hax : a = x
      · simp [hax]
      · simp [hax, hxl, Ne.symm hax]
    · have hxl : x ∈ l := by
        by_contra hx
        have hnone := ih.mpr hx
        rw [hnone] at h
        exact absurd h (by simp)
      simp [hxl]

theorem lastIdxOf_lt_and_get {l : List ℕ} {x k : ℕ}
    (h : lastIdxOf l x = some k) : k < l.length ∧ l.getD k 0 = x := by
  induction l generalizing k with
  | nil => simp [lastIdxOf] at h
  | cons a l ih =>
    simp only [lastIdxOf] at h
    rcases h2 : lastIdxOf l x with _ | k2
    · rw [h2] at h
      by_cases hax : a = x
      · rw [if_pos hax] at h
        simp only [Option.some.injEq] at h
        subst h
        simpa using hax
      · rw [if_neg hax] at h; exact absurd h (by simp)
    · rw [h2] at h
      simp only [Option.some.injEq] at h
      subst h
      obtain ⟨hlt, hget⟩ := ih h2
      exact ⟨Nat.succ_lt_succ hlt, by simpa using hget⟩

theorem count_eraseIdx_of_get {l : List ℕ} {x k : ℕ} (hk : k < l.length)
    (hget : l.getD k 0 = x) : (l.eraseIdx k).count x + 1 = l.count x := by
  induction l generalizing k with
  | nil => simp at hk
  | cons a l ih =>
    cases k with
    | zero =>
      simp only [List.getD] at hget
      simp only [List.eraseIdx]
      simp at hget
      rw [← hget]
      simp [List.count_cons]
    | succ k =>
      simp only [List.eraseIdx]
      have hk' : k < l.length := Nat.lt_of_succ_lt_succ hk
      have hget' : l.getD k 0 = x := by simpa using hget
      have := ih hk' hget'
      simp only [List.count_cons]
      omega

theorem eraseIdx_length_eq_zero_iff {l : List ℕ} {x k : ℕ}
    (hk : k < l.length) (hget : l.getD k 0 = x) :
    (l.eraseIdx k).length = 0 ↔ l = [x] := by
  constructor
  · intro h
    have hlen := List.length_eraseIdx_of_lt hk
    have hl1 : l.length = 1 := by omega
    rcases l with _ | ⟨a, l⟩
    · simp at hk
    · rcases l with _ | ⟨b, l⟩
      · have hk0 : k = 0 := by simp at hk; omega
        subst hk0
        simp only [List.getD] at hget
        simp at hget
        rw [← hget]
      · simp at hl1
  · rintro rfl
    simp at hk
    subst hk
    simp

/-- Claim C10: `_remove_item_index` panics — returns `none` — exactly when
the removed index is absent from the leaf reached by routing its position,
or when the removal would empty that leaf; on success, the tree holds
exactly one fewer occurrence of the index, the change being confined to
erasing the last occurrence inside the routed leaf. -/
theorem C10_remove_item_index_characterisation (arena : ℕ → Vec3)
    (t : KdTree) (index : ℕ) :
    (removeItemIndex arena t index = none ↔
      index ∉ routedLeaf arena t index ∨ routedLeaf arena t index = [index]) ∧
    (∀ t', removeItemIndex arena t index = some t' →
      countOcc t' index + 1 = countOcc t index ∧
      t' = replaceRoutedLeaf arena t index
        ((routedLeaf arena t index).eraseIdx
          ((lastIdxOf (routedLeaf arena t index) index).getD 0))) := by
  induction t with
  | Leaf l =>
    constructor
    · rcases h : lastIdxOf l index with _ | k
      · have hxl : index ∉ l := (lastIdxOf_eq_none_iff l index).mp h
        simp only [removeItemIndex, routedLeaf, h]
        simp [hxl]
      · obtain ⟨hk, hget⟩ := lastIdxOf_lt_and_get h
        have hmem : index ∈ l := by
          by_contra hx
          rw [(lastIdxOf_eq_none_iff l index).mpr hx] at h
          exact absurd h (by simp)
        simp only [removeItemIndex, routedLeaf, h]
        by_cases hz : (l.eraseIdx k).length = 0
        · rw [if_pos hz]
          simp only [true_iff]
          exact Or.inr ((eraseIdx_length_eq_zero_iff hk hget).mp hz)
        · rw [if_neg hz]
          have hne : l ≠ [index] :=
            fun heq => hz ((eraseIdx_length_eq_zero_iff hk hget).mpr heq)
          simp [hmem, hne]
    · intro t' ht'
      rcases h : lastIdxOf l index with _ | k
      · simp only [removeItemIndex, h] at ht'
        exact absurd ht' (by simp)
      · obtain ⟨hk, hget⟩ := lastIdxOf_lt_and_get h
        simp only [removeItemIndex, h] at ht'
        by_cases hz : (l.eraseIdx k).length = 0
        · rw [if_pos hz] at ht'; exact absurd ht' (by simp)
        · rw [if_neg hz] at ht'
          simp only [Option.some.injEq] at ht'
          subst ht'
          refine ⟨?_, ?_⟩
          · simp only [countOcc, elems]
            exact count_eraseIdx_of_get hk hget
          · simp only [routedLeaf, replaceRoutedLeaf, h]
            rfl
  | Node axis m left right ihl ihr =>
    by_cases hc : axis.component (arena index) < m
    · simp only [removeItemIndex, routedLeaf, replaceRoutedLeaf, if_pos hc]
      constructor
      · rw [← ihr.1]
        rcases hrem : removeItemIndex arena right index with _ | r' <;> simp [hrem]
      · intro t' ht'
        rcases hrem : removeItemIndex arena right index with _ | r'
        · rw [hrem] at ht'; exact absurd ht' (by simp)
        · rw [hrem] at ht'
          simp at ht'
          subst ht'
          obtain ⟨hcount, hrepl⟩ := ihr.2 r' hrem
          constructor
          · simp only [countOcc, elems, List.count_append] at hcount ⊢
            omega
          · rw [hrepl]
    · simp only [removeItemIndex, routedLeaf, replaceRoutedLeaf, if_neg hc]
      constructor
      · rw [← ihl.1]
        rcases hrem : removeItemIndex arena left index with _ | l' <;> simp [hrem]
      · intro t' ht'
        rcases hrem : removeItemIndex arena left index with _ | l'
        · rw [hrem] at ht'; exact absurd ht' (by simp)
        · rw [hrem] at ht'
          simp at ht'
          subst ht'
          obtain ⟨hcount, hrepl⟩ := ihl.2 l' hrem
          constructor
          · simp only [countOcc, elems, List.count_append] at hcount ⊢
            omega
          · rw [hrepl]

/-- Witness for C10: removing index 0 from the leaf `[0, 1]` succeeds and
leaves `[1]`, one occurrence fewer. -/
theorem C10_remove_item_index_witness :
    countOcc (.Leaf [1]) 0 + 1 = countOcc (.Leaf [0, 1]) 0 ∧
      (KdTree.Leaf [1]) = replaceRoutedLeaf arenaW (.Leaf [0, 1]) 0
        ((routedLeaf arenaW (.Leaf [0, 1]) 0).eraseIdx
          ((lastIdxOf (routedLeaf arenaW (.Leaf [0, 1]) 0) 0).getD 0)) :=
  (C10_remove_item_index_characterisation arenaW (.Leaf [0, 1]) 0).2
    (.Leaf [1]) rfl

/-! ### Relaxation-engine lemmas and claims C2, C3, C9 -/

/-- Claim C2: in a sub-step, a live particle dies iff its speed is below
`vₑ·r`, `r < σ_d·ρ*`, and the uniform draw `u` exceeds `r/(σ_d·ρ*)`; it
fissions iff its speed is below `vₑ·r`, the death condition fails, and
either `r > σ_r·ρ*` or (`E > σ_f·E*` and `r > ρ*`); a particle at or above
the equilibrium speed neither dies nor fissions. -/
theorem C2_death_fission_conditions (particle : Particle)
    (energy u desiredRadius : ℝ) :
    (stepOutcome particle energy u desiredRadius = .death ↔
      particle.velocity.magnitude < EQUILIBRIUM_SPEED * particle.radius ∧
        particle.radius < desiredRadius * DEATH_COEFFICIENT ∧
        u > particle.radius / (desiredRadius * DEATH_COEFFICIENT)) ∧
    (stepOutcome particle energy u desiredRadius = .fission ↔
      particle.velocity.magnitude < EQUILIBRIUM_SPEED * particle.radius ∧
        ¬ (particle.radius < desiredRadius * DEATH_COEFFICIENT ∧
            u > particle.radius / (desiredRadius * DEATH_COEFFICIENT)) ∧
        (particle.radius > desiredRadius * MAX_RADIUS_COEFFICIENT ∨
          (energy > DESIRED_REPULSION_ENERGY * FISSION_COEFFICIENT ∧
            particle.radius > desiredRadius))) ∧
    (¬ particle.velocity.magnitude < EQUILIBRIUM_SPEED * particle.radius →
      stepOutcome particle energy u desiredRadius = .move) := by
  unfold stepOutcome
  by_cases h1 : particle.velocity.magnitude < EQUILIBRIUM_SPEED * particle.radius
  · rw [if_pos h1]
    by_cases h2 : shouldDie particle.radius desiredRadius u
    · rw [if_pos h2]
      obtain ⟨h2a, h2b⟩ := h2
      refine ⟨⟨fun _ => ⟨h1, h2a, h2b⟩, fun _ => rfl⟩, ?_, fun hn => absurd h1 hn⟩
      constructor
      · intro he; simp at he
      · rintro ⟨_, hnd, _⟩; exact absurd ⟨h2a, h2b⟩ hnd
    · rw [if_neg h2]
      by_cases h3 : shouldFissionEnergy particle.radius energy desiredRadius ∨
          shouldFissionRadius particle.radius desiredRadius
      · rw [if_pos h3]
        refine ⟨?_, ?_, fun hn => absurd h1 hn⟩
        · constructor
          · intro he; simp at he
          · rintro ⟨_, ha, hb⟩; exact absurd ⟨ha, hb⟩ h2
        · constructor
          · intro _
            refine ⟨h1, fun hd => h2 ⟨hd.1, hd.2⟩, ?_⟩
            rcases h3 with he | hr
            · exact Or.inr ⟨he.1, he.2⟩
            · exact Or.inl hr
          · intro _; rfl
      · rw [if_neg h3]
        refine ⟨?_, ?_, fun hn => absurd h1 hn⟩
        · constructor
          · intro he; simp at he
          · rintro ⟨_, ha, hb⟩; exact absurd ⟨ha, hb⟩ h2
        · constructor
          · intro he; simp at he
          · rintro ⟨_, _, hor⟩
            refine absurd ?_ h3
            rcases hor with hr | he
            · exact Or.inr hr
            · exact Or.inl ⟨he.1, he.2⟩
  · rw [if_neg h1]
    refine ⟨?_, ?_, fun _ => rfl⟩
    · constructor
      · intro he; simp at he
      · rintro ⟨hs, _⟩; exact absurd hs h1
    · constructor
      · intro he; simp at he
      · rintro ⟨hs, _⟩; exact absurd hs h1

theorem magnitude_zero_vec : (Vec3.mk 0 0 0).magnitude = 0 := by
  simp [Vec3.magnitude, Vec3.dot, Real.sqrt_zero]

theorem magnitude_unit_x : (Vec3.mk 1 0 0).magnitude = 1 := by
  simp [Vec3.magnitude, Vec3.dot, Real.sqrt_one]

/-- Witness for C2: a particle at equilibrium with an oversized radius
fissions. -/
theorem C2_death_fission_conditions_witness :
    stepOutcome particleW1 0 (1 / 2) (1 / 2) = .fission :=
  (C2_death_fission_conditions particleW1 0 (1 / 2) (1 / 2)).2.1.mpr
    ⟨by
      show (particleW1.velocity).magnitude < EQUILIBRIUM_SPEED * particleW1.radius
      unfold particleW1
      simp only
      rw [magnitude_zero_vec]
      norm_num [EQUILIBRIUM_SPEED],
     by
      unfold particleW1
      simp only
      norm_num [DEATH_COEFFICIENT],
     Or.inl (by
      unfold particleW1
      simp only
      norm_num [MAX_RADIUS_COEFFICIENT])⟩

/-- Claim C3 (amended): on the move path, the written-back radius follows
the spec formula `r + Δt·(−φ·(E − E*))/(D + 10)` with the distances in `D`
taken from the particle's *updated* position of the same sub-step (the code
passes the stepped position into `particle_radius`), against the
neighbours' start-of-sub-step positions. -/
theorem C3_radius_update_formula (surface : Vec3 → ℝ)
    (t desiredRadius : ℝ) (c : Core) (j : ℕ)
    (h : stepOutcome (c.a (c.living.getD j 0))
      (repulsionEnergy (neighboursAt c (c.living.getD j 0)))
      (c.randF c.ctrF) desiredRadius = .move) :
    ((processParticle surface t desiredRadius c j).b (c.living.getD j 0)).radius
      = claimRadiusFromPosition c
        ((c.a (c.living.getD j 0)).position.add
          ((constrainToSurface surface t (c.a (c.living.getD j 0)).position
            (c.a (c.living.getD j 0)).normal
            (particleVelocity c (c.a (c.living.getD j 0)).position
              (c.a (c.living.getD j 0)).radius
              (neighboursAt c (c.living.getD j 0)))).scale ITERATION_T_STEP))
        (c.a (c.living.getD j 0)).radius
        (repulsionEnergy (neighboursAt c (c.living.getD j 0)))
        (neighboursAt c (c.living.getD j 0)) := by
  simp only [processParticle]
  rw [h]
  simp only [if_pos rfl, if_true]
  unfold particleRadius claimRadiusFromPosition
  ring

theorem Vec3.magnitude_sq (v : Vec3) : v.magnitude ^ 2 = v.dot v := by
  unfold Vec3.magnitude
  exact Real.sq_sqrt
    (by unfold Vec3.dot; nlinarith [sq_nonneg v.x, sq_nonneg v.y, sq_nonneg v.z])

theorem neighboursAt_coreW : neighboursAt coreW 0 = [(1, 6, 6)] := by
  unfold neighboursAt coreW getIndicesWithin particleW0 particleW1
  simp only
  norm_num [Vec3.distanceTo, Vec3.sub, Vec3.magnitude, Vec3.dot, Real.sqrt_zero,
    NEIGHBOUR_RADIUS, energyContribution, REPULSION_AMPLITUDE, Real.exp_zero]

theorem stepOutcome_pW0_move : stepOutcome particleW0 6 (1 / 2) 1 = .move := by
  have hs : ¬ (particleW0.velocity.magnitude <
      EQUILIBRIUM_SPEED * particleW0.radius) := by
    unfold particleW0
    simp only
    rw [magnitude_unit_x]
    norm_num [EQUILIBRIUM_SPEED]
  unfold stepOutcome
  rw [if_neg hs]

/-- Counterexample for C3: for the concrete two-particle state `coreW`
(coincident particles, radius 1/100, speed 1 — fast enough to take the move
path) the radius the sub-step writes back differs from the claim's formula
with distances taken from the *start-of-sub-step* position: the code feeds
the already-updated position into `particle_radius`. -/
theorem C3_counterexample :
    ((processParticle surfW 0 1 coreW 0).b 0).radius ≠
      claimRadiusFromPosition coreW particleW0.position particleW0.radius
        (repulsionEnergy (neighboursAt coreW 0)) (neighboursAt coreW 0) := by
  have hn := neighboursAt_coreW
  have hmove := stepOutcome_pW0_move
  simp only [processParticle, coreW, List.getD] at *
  norm_num at *
  rw [hn]
  have he : repulsionEnergy [((1 : ℕ), (6 : ℝ), (6 : ℝ))] = 6 := by
    norm_num [repulsionEnergy]
  rw [he, hmove]
  simp only [if_pos rfl, if_true]
  unfold particleRadius claimRadiusFromPosition particleW0 particleW1
  norm_num [Vec3.add, Vec3.sub, Vec3.scale, Vec3.dot, Vec3.divS, Vec3.zero,
    Vec3.magnitude_sq, constrainToSurface, particleVelocity, surfW,
    repulsionEnergy, FEEDBACK, DESIRED_REPULSION_ENERGY, REPULSION_AMPLITUDE,
    ITERATION_T_STEP, List.foldl]

/-- Witness for C3's amended theorem at the `coreW` fixture. -/
theorem C3_radius_update_formula_witness :
    ((processParticle surfW 0 1 coreW 0).b (coreW.living.getD 0 0)).radius
      = claimRadiusFromPosition coreW
        ((coreW.a (coreW.living.getD 0 0)).position.add
          ((constrainToSurface surfW 0 (coreW.a (coreW.living.getD 0 0)).position
            (coreW.a (coreW.living.getD 0 0)).normal
            (particleVelocity coreW (coreW.a (coreW.living.getD 0 0)).position
              (coreW.a (coreW.living.getD 0 0)).radius
              (neighboursAt coreW (coreW.living.getD 0 0)))).scale
            ITERATION_T_STEP))
        (coreW.a (coreW.living.getD 0 0)).radius
        (repulsionEnergy (neighboursAt coreW (coreW.living.getD 0 0)))
        (neighboursAt coreW (coreW.living.getD 0 0)) :=
  C3_radius_update_formula surfW 0 1 coreW 0
    (by
      have h0 : coreW.living.getD 0 0 = 0 := by norm_num [coreW]
      rw [h0]
      have ha : coreW.a 0 = particleW0 := by norm_num [coreW]
      have hu : coreW.randF coreW.ctrF = 1 / 2 := by norm_num [coreW]
      rw [ha, hu, neighboursAt_coreW]
      have he : repulsionEnergy [((1 : ℕ), (6 : ℝ), (6 : ℝ))] = 6 := by
        norm_num [repulsionEnergy]
      rw [he]
      exact stepOutcome_pW0_move)

/-- Claim C9 (amended): one `update` call performs exactly four sub-steps,
each ending with the buffer swap and an index rebuild over the live set of
the new front buffer; the simulation time advances by `Δt = 0.03` once per
`update` call — after the sub-step loop — not once per sub-step. -/
theorem C9_update_structure (surface : Vec3 → ℝ) (desiredRadius : ℝ)
    (s : SState) :
    (updateModel surface desiredRadius s =
      ⟨substepFn surface s.t desiredRadius
        (substepFn surface s.t desiredRadius
          (substepFn surface s.t desiredRadius
            (substepFn surface s.t desiredRadius s.core))),
       s.t + ITERATION_T_STEP⟩) ∧
    ∀ c : Core, (substepFn surface s.t desiredRadius c).index =
      construct (fun k => ((substepFn surface s.t desiredRadius c).a k).position)
        (substepFn surface s.t desiredRadius c).living SplitAxis.X := by
  constructor
  · rfl
  · intro c; rfl

/-- Counterexample for C9's timing part: one `update` call advances `t` by
`Δt = 0.03`, not by `4·Δt = 0.12`. -/
theorem C9_counterexample :
    (updateModel surfW 1 sstateW).t = 3 / 100 ∧ (3 : ℝ) / 100 ≠ 4 * (3 / 100) := by
  constructor
  · show sstateW.t + ITERATION_T_STEP = 3 / 100
    norm_num [sstateW, ITERATION_T_STEP]
  · norm_num

/-! ### Seeding lemmas and claim C6 -/

theorem seedLoop_error_iff (s : SurfaceT) (t : ℝ) :
    ∀ (n : ℕ) (p : Vec3),
      (seedLoop s t n p = .error "uh oh!" ↔
        (∀ k, 1 ≤ k → k ≤ n → ¬ onSurfaceT s t ((newtonStepT s t)^[k] p)) ∧
          (n = 0 → ¬ onSurfaceT s t p)) := by
  intro n
  induction n with
  | zero =>
    intro p
    unfold seedLoop
    by_cases h : onSurfaceT s t p
    · rw [if_pos h]
      constructor
      · intro he; exact absurd he (by simp)
      · rintro ⟨_, h0⟩; exact absurd h (h0 rfl)
    · rw [if_neg h]
      constructor
      · intro _
        refine ⟨?_, fun _ => h⟩
        intro k hk1 hk0; omega
      · intro _; rfl
  | succ n ih =>
    intro p
    unfold seedLoop
    by_cases h : onSurfaceT s t (newtonStepT s t p)
    · rw [if_pos h]
      constructor
      · intro he; exact absurd he (by simp)
      · rintro ⟨hall, _⟩
        exact absurd (by simpa using h) (hall 1 le_rfl (by omega))
    · rw [if_neg h]
      rw [ih (newtonStepT s t p)]
      constructor
      · rintro ⟨hall, _⟩
        refine ⟨?_, by omega⟩
        intro k hk1 hkn
        rcases Nat.eq_or_lt_of_le hk1 with h1 | h1
        · simpa [← h1] using h
        · have hk2 : 2 ≤ k := h1
          have : k - 1 ≥ 1 := by omega
          have hit := hall (k - 1) this (by omega)
          rw [← Function.iterate_succ_apply] at hit
          have hke : (k - 1).succ = k := by omega
          rwa [hke] at hit
      · rintro ⟨hall, _⟩
        refine ⟨?_, fun _ => h⟩
        intro k hk1 hkn
        have := hall (k + 1) (by omega) (by omega)
        rwa [Function.iterate_succ_apply] at this

/-- Claim C6 (amended): when none of the 100 Newton iterates reaches an
on-surface point, `seed` panics (`panic!("uh oh!")`) — there is no
`SeedingFailed` error value, the panic propagates out of `sample`/`new`, and
the engine does not return control for a retry.  The panic outcome is
characterised exactly: `seed` panics iff every iterate `1..100` is
off-surface. -/
theorem C6_seed_panics_iff (s : SurfaceT) (t : ℝ) (start : Vec3) :
    seedFn s t start = .error "uh oh!" ↔
      ∀ k, 1 ≤ k → k ≤ 100 → ¬ onSurfaceT s t ((newtonStepT s t)^[k] start) := by
  unfold seedFn
  rw [seedLoop_error_iff s t 100 start]
  constructor
  · rintro ⟨hall, _⟩; exact hall
  · intro hall; exact ⟨hall, by omega⟩

theorem quadS_never_on_surface (t : ℝ) (p : Vec3) : ¬ onSurfaceT quadS t p := by
  unfold onSurfaceT quadS EPS
  intro h
  rw [abs_le] at h
  nlinarith [sq_nonneg p.z, h.2]

/-- Counterexample for C6: on the surface `f = z² + 1` (no zero set), the
100 Newton iterations from the origin cannot converge, and `seed` *panics*
(modelled as the `"uh oh!"` error) instead of surfacing a recoverable
`SeedingFailed` error: the panic propagates to the caller of `step()`,
which does not return normally and cannot simply retry. -/
theorem C6_counterexample :
    seedFn quadS 0 ⟨0, 0, 0⟩ = .error "uh oh!" := by
  unfold seedFn
  rw [seedLoop_error_iff quadS 0 100 ⟨0, 0, 0⟩]
  exact ⟨fun k _ _ => quadS_never_on_surface 0 _, by omega⟩

/-! ### Kd-tree insertion lemmas (used by the KdContainer of the sampler) -/

theorem elems_insertItemIndex (arena : ℕ → Vec3) (t : KdTree) (ax : SplitAxis)
    (i : ℕ) :
    List.Perm (elems (insertItemIndex arena t ax i)) (i :: elems t) := by
  induction t generalizing ax with
  | Leaf l =>
    simp only [insertItemIndex]
    by_cases h : (l ++ [i]).length ≥ KD_LEAF_SIZE
    · rw [if_pos h]
      simp only [elems]
      exact (splitFn_perm arena (l ++ [i]) ax.next).trans
        (List.perm_append_singleton i l)
    · rw [if_neg h]
      simp only [elems]
      exact List.perm_append_singleton i l
  | Node axis m left right ihl ihr =>
    simp only [insertItemIndex]
    by_cases h : axis.component (arena i) < m
    · rw [if_pos h]
      simp only [elems]
      refine List.Perm.trans (List.Perm.append_left (elems left) (ihr axis)) ?_
      exact List.perm_middle
    · rw [if_neg h]
      simp only [elems]
      exact List.Perm.append_right (elems right) (ihl axis)

theorem wf_insertItemIndex (arena : ℕ → Vec3) {t : KdTree} (hw : WF arena t)
    (ax : SplitAxis) (i : ℕ) : WF arena (insertItemIndex arena t ax i) := by
  induction hw generalizing ax with
  | leaf l =>
    simp only [insertItemIndex]
    by_cases h : (l ++ [i]).length ≥ KD_LEAF_SIZE
    · rw [if_pos h]
      refine WF.node (WF.leaf _) (WF.leaf _) ?_ ?_
      · intro j hj
        simp only [elems] at hj
        exact (mem_splitFn_left.mp hj).2
      · intro j hj
        simp only [elems] at hj
        exact (mem_splitFn_right.mp hj).2
    · rw [if_neg h]; exact WF.leaf _
  | @node axis m left right hwl hwr hleft hright ihl ihr =>
    simp only [insertItemIndex]
    by_cases h : axis.component (arena i) < m
    · rw [if_pos h]
      refine WF.node hwl (ihr axis) hleft ?_
      intro j hj
      rcases List.mem_cons.mp
          ((elems_insertItemIndex arena right axis i).mem_iff.mp hj) with
        rfl | hjm
      · exact h
      · exact hright j hjm
    · rw [if_neg h]
      refine WF.node (ihl axis) hwr ?_ hright
      intro j hj
      rcases List.mem_cons.mp
          ((elems_insertItemIndex arena left axis i).mem_iff.mp hj) with
        rfl | hjm
      · exact h
      · exact hleft j hjm

theorem wf_arena_congr {arena arenaB : ℕ → Vec3} {t : KdTree}
    (hag : ∀ j ∈ elems t, arenaB j = arena j) (hw : WF arena t) :
    WF arenaB t := by
  induction hw with
  | leaf l => exact WF.leaf _
  | @node axis m left right hwl hwr hleft hright ihl ihr =>
    simp only [elems] at hag
    refine WF.node
      (ihl fun j hj => hag j (List.mem_append_left _ hj))
      (ihr fun j hj => hag j (List.mem_append_right _ hj)) ?_ ?_
    · intro j hj
      rw [hag j (List.mem_append_left _ hj)]
      exact hleft j hj
    · intro j hj
      rw [hag j (List.mem_append_right _ hj)]
      exact hright j hj

theorem anyIndicesWithin_iff_of_wf {arena : ℕ → Vec3} {t : KdTree}
    (hw : WF arena t) (origin : Vec3) (radius : ℝ) :
    anyIndicesWithin arena t origin radius = true ↔
      ∃ j ∈ elems t, (arena j).distanceTo origin ≤ radius := by
  induction hw with
  | leaf l =>
    simp [anyIndicesWithin, elems, List.any_eq_true]
  | @node axis m left right hwl hwr hleft hright ihl ihr =>
    simp only [anyIndicesWithin, Bool.or_eq_true, Bool.and_eq_true,
      decide_eq_true_eq, ihl, ihr, elems]
    constructor
    · rintro (⟨_, j, hm, hd⟩ | ⟨_, j, hm, hd⟩)
      · exact ⟨j, List.mem_append_left _ hm, hd⟩
      · exact ⟨j, List.mem_append_right _ hm, hd⟩
    · rintro ⟨j, hm, hd⟩
      rcases List.mem_append.mp hm with hm | hm
      · left
        have hcomp : ¬ axis.component (arena j) < m := hleft j hm
        have habs := abs_component_sub_le_distanceTo axis (arena j) origin
        refine ⟨?_, j, hm, hd⟩
        have h1 : axis.component (arena j) - axis.component origin ≤ radius :=
          le_trans (le_abs_self _) (le_trans habs hd)
        push_neg at hcomp
        linarith
      · right
        have hcomp : axis.component (arena j) < m := hright j hm
        have habs := abs_component_sub_le_distanceTo axis (arena j) origin
        refine ⟨?_, j, hm, hd⟩
        have hcm : |axis.component (arena j) - axis.component origin|
            = |axis.component origin - axis.component (arena j)| :=
          abs_sub_comm _ _
        have h2 : axis.component origin - axis.component (arena j) ≤
            |axis.component origin - axis.component (arena j)| := le_abs_self _
        rw [← hcm] at h2
        have h1 : axis.component origin - axis.component (arena j) ≤ radius :=
          le_trans h2 (le_trans habs hd)
        linarith

/-! ### KdContainer invariants and claims C4, C5 -/

/-- The container invariant: the tree is well-formed over the item arena and
indexes exactly the item positions `0..items.length`. -/
def KInv (c : KdContainer) : Prop :=
  WF (arenaOfList c.items) c.tree ∧
    List.Perm (elems c.tree) (List.range c.items.length)

theorem siblingPoints_length (s : Vec3 → ℝ) (parent : Vec3) (r : ℝ) :
    (siblingPoints s parent r).length = 6 := by
  unfold siblingPoints
  simp only [List.length_map, List.length_range]

theorem kInv_new : KInv KdContainer.new := by
  refine ⟨WF.leaf _, ?_⟩
  simp [KdContainer.new, elems]

theorem arenaOfList_append {items : List Vec3} {p : Vec3} {j : ℕ}
    (hj : j < items.length) :
    arenaOfList (items ++ [p]) j = arenaOfList items j := by
  simp [arenaOfList, List.getD_eq_getElem?_getD, List.getElem?_append_left hj]

theorem kInv_push {c : KdContainer} {p : Vec3} (h : KInv c) :
    KInv (c.push p) := by
  obtain ⟨hw, hperm⟩ := h
  unfold KdContainer.push
  have hag : ∀ j ∈ elems c.tree,
      arenaOfList (c.items ++ [p]) j = arenaOfList c.items j := by
    intro j hj
    have hj' : j < c.items.length :=
      List.mem_range.mp (hperm.mem_iff.mp hj)
    exact arenaOfList_append hj'
  constructor
  · exact wf_insertItemIndex _ (wf_arena_congr hag hw) _ _
  · have hlen : (c.items ++ [p]).length - 1 = c.items.length := by simp
    refine List.Perm.trans
      (elems_insertItemIndex (arenaOfList (c.items ++ [p])) c.tree
        SplitAxis.X ((c.items ++ [p]).length - 1)) ?_
    rw [hlen]
    simp only [List.length_append, List.length_singleton]
    rw [List.range_succ]
    exact List.Perm.trans (List.Perm.cons _ hperm)
      (List.perm_append_singleton _ _).symm

theorem kInv_append {c : KdContainer} {points : List Vec3} (h : KInv c) :
    KInv (c.append points) := by
  induction points generalizing c with
  | nil => exact h
  | cons p rest ih =>
    exact ih (kInv_push h)

theorem kdContainer_append_items (c : KdContainer) (points : List Vec3) :
    (c.append points).items = c.items ++ points := by
  induction points generalizing c with
  | nil => simp [KdContainer.append]
  | cons p rest ih =>
    show ((c.push p).append rest).items = _
    rw [ih]
    simp [KdContainer.push]

theorem anyItemsInRadius_iff {c : KdContainer} (h : KInv c) (pt : Vec3)
    (r : ℝ) :
    c.anyItemsInRadius pt r = true ↔
      ∃ j < c.items.length,
        (c.items.getD j Vec3.zero).distanceTo pt ≤ r := by
  unfold KdContainer.anyItemsInRadius
  rw [anyIndicesWithin_iff_of_wf h.1]
  constructor
  · rintro ⟨j, hm, hd⟩
    exact ⟨j, List.mem_range.mp (h.2.mem_iff.mp hm), hd⟩
  · rintro ⟨j, hj, hd⟩
    exact ⟨j, h.2.mem_iff.mpr (List.mem_range.mpr hj), hd⟩

/-- The separation property the front expansion maintains: every item of
index `≥ 6` (accepted during the expansion, after the six unconditionally
accepted initial siblings) is farther than `1.9·ρ` from every item accepted
before it. -/
def SepList (repulsionRadius : ℝ) (items : List Vec3) : Prop :=
  ∀ i j, i < j → j < items.length → 6 ≤ j →
    ¬ ((items.getD i Vec3.zero).distanceTo (items.getD j Vec3.zero) ≤
        repulsionRadius * 1.9)

theorem sepList_push {repulsionRadius : ℝ} {items : List Vec3} {p : Vec3}
    (hs : SepList repulsionRadius items)
    (hnew : ∀ i < items.length,
      ¬ ((items.getD i Vec3.zero).distanceTo p ≤ repulsionRadius * 1.9)) :
    SepList repulsionRadius (items ++ [p]) := by
  intro i j hij hjlen h6
  rw [List.length_append, List.length_singleton] at hjlen
  by_cases hjl : j < items.length
  · have hil : i < items.length := lt_trans hij hjl
    rw [List.getD_append _ _ _ _ hil, List.getD_append _ _ _ _ hjl]
    exact hs i j hij hjl h6
  · have hj : j = items.length := by omega
    subst hj
    have hil : i < items.length := hij
    rw [List.getD_append _ _ _ _ hil]
    have hgp : (items ++ [p]).getD items.length Vec3.zero = p := by
      rw [List.getD_eq_getElem?_getD, List.getElem?_append_right le_rfl]
      simp
    rw [hgp]
    exact hnew i hil

/-- The inner `for point in sibling_points(...)` fold preserves the
container invariant and the separation property. -/
theorem sampler_fold_preserves (repulsionRadius : ℝ)
    (siblings : List Vec3) :
    ∀ st : KdContainer × List Vec3, KInv st.1 →
      SepList repulsionRadius st.1.items →
      KInv (siblings.foldl (sampleFoldStep repulsionRadius) st).1 ∧
      SepList repulsionRadius
        (siblings.foldl (sampleFoldStep repulsionRadius) st).1.items := by
  induction siblings with
  | nil => intro st h1 h2; exact ⟨h1, h2⟩
  | cons point rest ih =>
    intro st h1 h2
    simp only [List.foldl_cons, sampleFoldStep]
    by_cases hany : st.1.anyItemsInRadius point (repulsionRadius * 1.9) = true
    · rw [if_pos hany]
      exact ih st h1 h2
    · rw [if_neg hany]
      have hnew : ∀ i < st.1.items.length,
          ¬ ((st.1.items.getD i Vec3.zero).distanceTo point ≤
              repulsionRadius * 1.9) := by
        intro i hi hd
        exact hany ((anyItemsInRadius_iff h1 point (repulsionRadius * 1.9)).mpr
          ⟨i, hi, hd⟩)
      refine ih (st.1.push point, st.2 ++ [point]) (kInv_push h1) ?_
      show SepList repulsionRadius (st.1.push point).items
      have hitems : (st.1.push point).items = st.1.items ++ [point] := by
        simp [KdContainer.push]
      rw [hitems]
      exact sepList_push h2 hnew

theorem sampleLoop_sep (surface : Vec3 → ℝ) (repulsionRadius : ℝ) :
    ∀ (fuel : ℕ) (samples : KdContainer) (untreated : List Vec3)
      (res : List Vec3),
      sampleLoop surface repulsionRadius fuel samples untreated = some res →
      KInv samples → SepList repulsionRadius samples.items →
      SepList repulsionRadius res := by
  intro fuel
  induction fuel with
  | zero => intro samples untreated res h; exact absurd h (by simp [sampleLoop])
  | succ fuel ih =>
    intro samples untreated res h h1 h2
    unfold sampleLoop at h
    rcases hg : untreated.getLast? with _ | nextSeed
    · rw [hg] at h
      simp only [Option.some.injEq] at h
      rw [← h]; exact h2
    · rw [hg] at h
      simp only at h
      have hpres := sampler_fold_preserves repulsionRadius
        (siblingPoints surface nextSeed repulsionRadius)
        (samples, untreated.dropLast) h1 h2
      exact ih _ _ res h hpres.1 hpres.2

/-- Claim C4 (amended): in every completed run of the sampler, an
expansion-accepted point (index ≥ 6 of the returned list — everything after
the six initial siblings, which are accepted without any test) lies at
distance greater than `1.9·ρ` from every point accepted before it; the
acceptance test queries, via the exact kd-container query, whether any
already-accepted point lies within `1.9·ρ`.  (The six initial siblings
themselves carry no such guarantee; see the counterexample.) -/
theorem C4_sampler_separation {surface : Vec3 → ℝ} {seed : Vec3}
    {repulsionRadius : ℝ} {fuel : ℕ} {res : List Vec3}
    (h : sampleModel surface seed repulsionRadius fuel = some res) :
    ∀ i j, i < j → j < res.length → 6 ≤ j →
      (res.getD i Vec3.zero).distanceTo (res.getD j Vec3.zero) >
        repulsionRadius * 1.9 := by
  unfold sampleModel at h
  by_cases hseed : ¬ onSurface surface seed
  · rw [if_pos hseed] at h; exact absurd h (by simp)
  · rw [if_neg hseed] at h
    simp only at h
    have hinv : KInv (KdContainer.new.append
        (siblingPoints surface seed repulsionRadius)) := kInv_append kInv_new
    have hsep : SepList repulsionRadius
        (KdContainer.new.append
          (siblingPoints surface seed repulsionRadius)).items := by
      have hlen6 : (KdContainer.new.append
          (siblingPoints surface seed repulsionRadius)).items.length = 6 := by
        rw [kdContainer_append_items]
        simp only [KdContainer.new, List.nil_append]
        exact siblingPoints_length _ _ _
      intro i j hij hjlen h6
      rw [hlen6] at hjlen
      omega
    have := sampleLoop_sep surface repulsionRadius fuel _ _ res h hinv hsep
    intro i j hij hjlen h6
    exact lt_of_not_le (this i j hij hjlen h6)

/-- Claim C5 (amended): a refined point is on-surface if its refinement
loop terminated through the `on_surface` check; otherwise it is the result
of all 10 pull-push iterations with every iterate off-surface — and such
off-surface points are still returned and accepted by the sampler. -/
theorem C5_refine_characterisation (surface : Vec3 → ℝ) (radius : ℝ)
    (parent guess : Vec3) :
    onSurface surface (refinePoint surface radius parent guess) ∨
      (refinePoint surface radius parent guess =
        (refineStep surface radius parent)^[10] guess ∧
        ∀ k, 1 ≤ k → k ≤ 10 →
          ¬ onSurface surface
            ((refineStep surface radius parent)^[k] guess)) := by
  suffices H : ∀ (n : ℕ) (p : Vec3),
      onSurface surface (refineLoop surface radius parent n p) ∨
        (refineLoop surface radius parent n p =
          (refineStep surface radius parent)^[n] p ∧
          ∀ k, 1 ≤ k → k ≤ n →
            ¬ onSurface surface ((refineStep surface radius parent)^[k] p)) by
    exact H 10 guess
  intro n
  induction n with
  | zero =>
    intro p
    right
    refine ⟨by simp [refineLoop], ?_⟩
    intro k hk1 hk0; omega
  | succ n ih =>
    intro p
    unfold refineLoop
    by_cases h : onSurface surface (refineStep surface radius parent p)
    · rw [if_pos h]; exact Or.inl h
    · rw [if_neg h]
      rcases ih (refineStep surface radius parent p) with hon | ⟨heq, hall⟩
      · exact Or.inl hon
      · right
        constructor
        · rw [heq, ← Function.iterate_succ_apply]
        · intro k hk1 hkn
          rcases Nat.eq_or_lt_of_le hk1 with h1 | h1
          · simpa [← h1] using h
          · have : k - 1 ≥ 1 := by omega
            have hit := hall (k - 1) this (by omega)
            rw [← Function.iterate_succ_apply] at hit
            have hke : (k - 1).succ = k := by omega
            rwa [hke] at hit


theorem sC_seed : surfC ⟨0, 0, 0⟩ = 0 := by norm_num [surfC, GRAD_H]
theorem sC_seed_e1 : surfC ⟨0 + GRAD_H, 0, 0⟩ = 0 := by norm_num [surfC, GRAD_H]
theorem sC_seed_e2 : surfC ⟨0, 0 + GRAD_H, 0⟩ = 0 := by norm_num [surfC, GRAD_H]
theorem sC_seed_e3 : surfC ⟨0, 0, 0 + GRAD_H⟩ = GRAD_H := by norm_num [surfC, GRAD_H]
theorem sC_q : surfC qC = 2 := by norm_num [surfC, GRAD_H, qC]
theorem sC_q' : surfC qC' = -2 := by norm_num [surfC, GRAD_H, qC']

theorem sC_q_e1 : surfC ⟨0 + GRAD_H, 0, -5⟩ = 2 := by norm_num [surfC, GRAD_H, qC]
theorem sC_q_e2 : surfC ⟨0, 0 + GRAD_H, -5⟩ = 2 := by norm_num [surfC, GRAD_H]
theorem sC_q_e3 : surfC ⟨0, 0, -5 + GRAD_H⟩ = 2 + GRAD_H := by norm_num [surfC, GRAD_H]
theorem sC_q'_e1 : surfC ⟨0 + GRAD_H, 0, -7⟩ = -2 := by norm_num [surfC, GRAD_H]
theorem sC_q'_e2 : surfC ⟨0, 0 + GRAD_H, -7⟩ = -2 := by norm_num [surfC, GRAD_H]
theorem sC_q'_e3 : surfC ⟨0, 0, -7 + GRAD_H⟩ = -2 + GRAD_H := by norm_num [surfC, GRAD_H]

theorem grad_seed : gradientS surfC ⟨0, 0, 0⟩ = ⟨0, 0, 1⟩ := by
  unfold gradientS
  simp only
  rw [sC_seed, sC_seed_e1, sC_seed_e2, sC_seed_e3]
  norm_num [GRAD_H]

theorem grad_q : gradientS surfC qC = ⟨0, 0, 1⟩ := by
  unfold gradientS qC
  simp only
  rw [show surfC ⟨0,0,-5⟩ = 2 from sC_q, sC_q_e1, sC_q_e2, sC_q_e3]
  norm_num [GRAD_H]

theorem grad_q' : gradientS surfC qC' = ⟨0, 0, 1⟩ := by
  unfold gradientS qC'
  simp only
  rw [show surfC ⟨0,0,-7⟩ = -2 from sC_q', sC_q'_e1, sC_q'_e2, sC_q'_e3]
  norm_num [GRAD_H]

theorem normalize_unitz : (Vec3.mk 0 0 1).normalize = ⟨0, 0, 1⟩ := by
  unfold Vec3.normalize Vec3.magnitude Vec3.dot Vec3.scale
  norm_num [Real.sqrt_one]

theorem plane_unitz (o : Vec3) :
    Plane.fromOriginNormal o ⟨0, 0, 1⟩ = ⟨o, ⟨0, 1, 0⟩, ⟨1, 0, 0⟩⟩ := by
  unfold Plane.fromOriginNormal Vec3.imin cardinalOf Vec3.cross
  norm_num
  constructor
  · unfold Vec3.normalize Vec3.magnitude Vec3.dot Vec3.scale
    norm_num [Real.sqrt_one]
  · unfold Vec3.normalize Vec3.magnitude Vec3.dot Vec3.scale
    norm_num [Real.sqrt_one]

theorem sC_circle0 {gx gy : ℝ} (hab : gx ^ 2 + gy ^ 2 = 4) :
    surfC ⟨gx, gy, 0⟩ = 29 := by
  unfold surfC
  simp only
  rw [if_pos ⟨trivial, hab⟩]

theorem sC_circle0_e1 {gx gy : ℝ} (hab : gx ^ 2 + gy ^ 2 = 4)
    (s1 : gx ≠ -GRAD_H / 2) :
    surfC ⟨gx + GRAD_H, gy, 0⟩ = 29 + GRAD_H * gx := by
  unfold surfC
  simp only
  rw [if_neg, if_pos ⟨trivial, by ring_nf; linarith [hab]⟩]
  · ring
  · rintro ⟨-, hc⟩
    apply s1
    have hH : GRAD_H = 1 / 10000 := rfl
    rw [hH] at hc ⊢
    nlinarith [hab, hc]

theorem sC_circle0_e2 {gx gy : ℝ} (hab : gx ^ 2 + gy ^ 2 = 4)
    (s2 : gy ≠ -GRAD_H / 2) (s3 : gy ≠ gx - GRAD_H) :
    surfC ⟨gx, gy + GRAD_H, 0⟩ = 29 + GRAD_H * gy := by
  have hH : GRAD_H = 1 / 10000 := rfl
  unfold surfC
  simp only
  rw [if_neg, if_neg, if_pos ⟨trivial, by ring_nf; linarith [hab]⟩]
  · ring
  · rintro ⟨-, hc⟩
    apply s3
    rw [hH] at hc ⊢
    nlinarith [hab, hc]
  · rintro ⟨-, hc⟩
    apply s2
    rw [hH] at hc ⊢
    nlinarith [hab, hc]

theorem sC_circle0_e3 {gx gy : ℝ} (hab : gx ^ 2 + gy ^ 2 = 4) :
    surfC ⟨gx, gy, 0 + GRAD_H⟩ = 29 + GRAD_H * 5 := by
  have hH : GRAD_H = 1 / 10000 := rfl
  unfold surfC
  simp only
  rw [if_neg, if_neg, if_neg, if_pos ⟨by rw [hH]; norm_num, hab⟩]
  · rintro ⟨hz, -⟩; rw [hH] at hz; norm_num at hz
  · rintro ⟨hz, -⟩; rw [hH] at hz; norm_num at hz
  · rintro ⟨hz, -⟩; rw [hH] at hz; norm_num at hz

theorem sC_circle7 {gx gy : ℝ} (hab : gx ^ 2 + gy ^ 2 = 4) :
    surfC ⟨gx, gy, -7⟩ = 4 := by
  have hH : GRAD_H = 1 / 10000 := rfl
  unfold surfC
  simp only
  rw [if_neg, if_neg, if_neg, if_neg, if_neg, if_neg, if_neg, if_neg,
    if_pos ⟨trivial, hab⟩]
  all_goals rintro ⟨hz, -⟩
  all_goals norm_num [hH] at hz

theorem sC_circle7_e1 {gx gy : ℝ} (hab : gx ^ 2 + gy ^ 2 = 4)
    (s1 : gx ≠ -GRAD_H / 2) :
    surfC ⟨gx + GRAD_H, gy, -7⟩ = 4 + GRAD_H * gx := by
  have hH : GRAD_H = 1 / 10000 := rfl
  unfold surfC
  simp only
  rw [if_neg, if_neg, if_neg, if_neg, if_neg, if_neg, if_neg, if_neg,
    if_neg, if_pos ⟨trivial, by ring_nf; linarith [hab]⟩]
  · ring
  · rintro ⟨-, hc⟩
    apply s1
    rw [hH] at hc ⊢
    nlinarith [hab, hc]
  all_goals rintro ⟨hz, -⟩
  all_goals norm_num [hH] at hz

theorem sC_circle7_e2 {gx gy : ℝ} (hab : gx ^ 2 + gy ^ 2 = 4)
    (s2 : gy ≠ -GRAD_H / 2) (s3 : gy ≠ gx - GRAD_H) :
    surfC ⟨gx, gy + GRAD_H, -7⟩ = 4 + GRAD_H * gy := by
  have hH : GRAD_H = 1 / 10000 := rfl
  unfold surfC
  simp only
  rw [if_neg, if_neg, if_neg, if_neg, if_neg, if_neg, if_neg, if_neg,
    if_neg, if_neg, if_pos ⟨trivial, by ring_nf; linarith [hab]⟩]
  · ring
  · rintro ⟨-, hc⟩
    apply s3
    rw [hH] at hc ⊢
    nlinarith [hab, hc]
  · rintro ⟨-, hc⟩
    apply s2
    rw [hH] at hc ⊢
    nlinarith [hab, hc]
  all_goals rintro ⟨hz, -⟩
  all_goals norm_num [hH] at hz

theorem sC_circle7_e3 {gx gy : ℝ} (hab : gx ^ 2 + gy ^ 2 = 4) :
    surfC ⟨gx, gy, -7 + GRAD_H⟩ = 4 := by
  have hH : GRAD_H = 1 / 10000 := rfl
  unfold surfC
  simp only
  rw [if_neg, if_neg, if_neg, if_neg, if_neg, if_neg, if_neg, if_neg,
    if_neg, if_neg, if_neg, if_pos ⟨trivial, hab⟩]
  all_goals rintro ⟨hz, -⟩
  all_goals norm_num [hH] at hz

theorem sC_z5 (x y : ℝ) (h5 : ¬(x = 0 ∧ y = 0)) (h6 : ¬(x = GRAD_H ∧ y = 0))
    (h7 : ¬(x = 0 ∧ y = GRAD_H)) : surfC ⟨x, y, -5⟩ = -5 := by
  have hH : GRAD_H = 1 / 10000 := rfl
  unfold surfC
  simp only
  rw [if_neg, if_neg, if_neg, if_neg, if_neg, if_neg, if_neg, if_neg,
    if_neg, if_neg, if_neg, if_neg, if_neg, if_neg, if_neg, if_neg]
  all_goals first
    | rfl
    | (rintro ⟨-, hx, hy⟩
       first
         | exact h5 ⟨hx, hy⟩
         | exact h6 ⟨hx, hy⟩
         | exact h7 ⟨hx, hy⟩)
    | (rintro ⟨hz, -⟩; exact absurd hz (by norm_num [hH]))

theorem sC_z5h (x y : ℝ) (h8 : ¬(x = 0 ∧ y = 0)) :
    surfC ⟨x, y, -5 + GRAD_H⟩ = -5 + GRAD_H := by
  have hH : GRAD_H = 1 / 10000 := rfl
  unfold surfC
  simp only
  rw [if_neg, if_neg, if_neg, if_neg, if_neg, if_neg, if_neg, if_neg,
    if_neg, if_neg, if_neg, if_neg, if_neg, if_neg, if_neg, if_neg]
  all_goals first
    | rfl
    | (rintro ⟨-, hx, hy⟩; exact h8 ⟨hx, hy⟩)
    | (rintro ⟨hz, -⟩; exact absurd hz (by norm_num [hH]))

theorem grad_circle0 {gx gy : ℝ} (hab : gx ^ 2 + gy ^ 2 = 4)
    (s1 : gx ≠ -GRAD_H / 2) (s2 : gy ≠ -GRAD_H / 2) (s3 : gy ≠ gx - GRAD_H) :
    gradientS surfC ⟨gx, gy, 0⟩ = ⟨gx, gy, 5⟩ := by
  unfold gradientS
  simp only
  rw [sC_circle0 hab, sC_circle0_e1 hab s1, sC_circle0_e2 hab s2 s3,
    sC_circle0_e3 hab]
  have hH : GRAD_H = 1 / 10000 := rfl
  simp only [Vec3.mk.injEq, hH]
  norm_num

theorem grad_circle7 {gx gy : ℝ} (hab : gx ^ 2 + gy ^ 2 = 4)
    (s1 : gx ≠ -GRAD_H / 2) (s2 : gy ≠ -GRAD_H / 2) (s3 : gy ≠ gx - GRAD_H) :
    gradientS surfC ⟨gx, gy, -7⟩ = ⟨gx, gy, 0⟩ := by
  unfold gradientS
  simp only
  rw [sC_circle7 hab, sC_circle7_e1 hab s1, sC_circle7_e2 hab s2 s3,
    sC_circle7_e3 hab]
  have hH : GRAD_H = 1 / 10000 := rfl
  simp only [Vec3.mk.injEq, hH]
  norm_num

theorem grad_circle5 {gx gy : ℝ} (hab : gx ^ 2 + gy ^ 2 = 4) :
    gradientS surfC ⟨gx, gy, -5⟩ = ⟨0, 0, 1⟩ := by
  have hH : GRAD_H = 1 / 10000 := rfl
  have hne : ∀ u v : ℝ, u ^ 2 + v ^ 2 = 4 → ¬(u = 0 ∧ v = 0) := by
    rintro u v huv ⟨rfl, rfl⟩; norm_num at huv
  unfold gradientS
  simp only
  rw [sC_z5 gx gy (hne gx gy hab)
      (by rintro ⟨rfl, rfl⟩; rw [hH] at hab; norm_num at hab)
      (by rintro ⟨rfl, rfl⟩; rw [hH] at hab; norm_num at hab),
    sC_z5 (gx + GRAD_H) gy
      (by rintro ⟨hx, rfl⟩
          have : gx = -GRAD_H := by linarith
          rw [this, hH] at hab; norm_num at hab)
      (by rintro ⟨hx, rfl⟩
          have : gx = 0 := by linarith
          rw [this] at hab; norm_num at hab)
      (by rintro ⟨hx, rfl⟩
          have : gx = -GRAD_H := by linarith
          rw [this, hH] at hab; norm_num at hab),
    sC_z5 gx (gy + GRAD_H)
      (by rintro ⟨rfl, hy⟩
          have : gy = -GRAD_H := by linarith
          rw [this, hH] at hab; norm_num at hab)
      (by rintro ⟨rfl, hy⟩
          have : gy = -GRAD_H := by linarith
          rw [this, hH] at hab; norm_num at hab)
      (by rintro ⟨rfl, hy⟩
          have : gy = 0 := by linarith
          rw [this] at hab; norm_num at hab),
    sC_z5h gx gy (hne gx gy hab)]
  simp only [Vec3.mk.injEq, hH]
  norm_num

theorem mag_00n (c : ℝ) (h : 0 ≤ c) : (Vec3.mk 0 0 (-c)).magnitude = c := by
  unfold Vec3.magnitude Vec3.dot
  rw [show (0 : ℝ) * 0 + 0 * 0 + -c * -c = c ^ 2 by ring, Real.sqrt_sq h]

theorem mag_00p (c : ℝ) (h : 0 ≤ c) : (Vec3.mk 0 0 c).magnitude = c := by
  unfold Vec3.magnitude Vec3.dot
  rw [show (0 : ℝ) * 0 + 0 * 0 + c * c = c ^ 2 by ring, Real.sqrt_sq h]

theorem onS_seed : onSurface surfC ⟨0, 0, 0⟩ := by
  unfold onSurface
  rw [sC_seed]
  norm_num [EPS]

theorem notOnS_q : ¬ onSurface surfC qC := by
  unfold onSurface
  rw [sC_q]
  norm_num [EPS]

theorem notOnS_q' : ¬ onSurface surfC qC' := by
  unfold onSurface
  rw [sC_q']
  norm_num [EPS]

theorem notOnS_circle0 {gx gy : ℝ} (hab : gx ^ 2 + gy ^ 2 = 4) :
    ¬ onSurface surfC ⟨gx, gy, 0⟩ := by
  unfold onSurface
  rw [sC_circle0 hab]
  norm_num [EPS]

theorem refineLoop_succ (surface : Vec3 → ℝ) (radius : ℝ)
    (parent : Vec3) (n : ℕ) (point : Vec3) :
    refineLoop surface radius parent (n + 1) point =
      if onSurface surface (refineStep surface radius parent point) then
        refineStep surface radius parent point
      else
        refineLoop surface radius parent n
          (refineStep surface radius parent point) := rfl

theorem refineLoop_one (surface : Vec3 → ℝ) (radius : ℝ)
    (parent point : Vec3) :
    refineLoop surface radius parent 1 point =
      refineStep surface radius parent point := by
  show refineLoop surface radius parent (0 + 1) point = _
  rw [refineLoop_succ]
  split <;> rfl

theorem pulled_circle0 {gx gy : ℝ} (hab : gx ^ 2 + gy ^ 2 = 4)
    (s1 : gx ≠ -GRAD_H / 2) (s2 : gy ≠ -GRAD_H / 2) (s3 : gy ≠ gx - GRAD_H) :
    (Vec3.mk gx gy 0).sub ((gradientS surfC ⟨gx, gy, 0⟩).scale
      (surfC ⟨gx, gy, 0⟩ /
        (gradientS surfC ⟨gx, gy, 0⟩).dot (gradientS surfC ⟨gx, gy, 0⟩))) =
      qC := by
  rw [grad_circle0 hab s1 s2 s3, sC_circle0 hab]
  unfold Vec3.sub Vec3.scale Vec3.dot qC
  have hd : gx * gx + gy * gy + 5 * 5 = 29 := by linear_combination hab
  rw [hd]
  simp only [Vec3.mk.injEq]
  norm_num

theorem pulled_q :
    qC.sub ((gradientS surfC qC).scale
      (surfC qC / (gradientS surfC qC).dot (gradientS surfC qC))) = qC' := by
  rw [grad_q, sC_q]
  unfold Vec3.sub Vec3.scale Vec3.dot qC qC'
  norm_num

theorem pulled_q' :
    qC'.sub ((gradientS surfC qC').scale
      (surfC qC' / (gradientS surfC qC').dot (gradientS surfC qC'))) = qC := by
  rw [grad_q', sC_q']
  unfold Vec3.sub Vec3.scale Vec3.dot qC qC'
  norm_num

theorem pulled_circle7 {gx gy : ℝ} (hab : gx ^ 2 + gy ^ 2 = 4)
    (s1 : gx ≠ -GRAD_H / 2) (s2 : gy ≠ -GRAD_H / 2) (s3 : gy ≠ gx - GRAD_H) :
    (Vec3.mk gx gy (-7)).sub ((gradientS surfC ⟨gx, gy, -7⟩).scale
      (surfC ⟨gx, gy, -7⟩ /
        (gradientS surfC ⟨gx, gy, -7⟩).dot (gradientS surfC ⟨gx, gy, -7⟩))) =
      qC' := by
  rw [grad_circle7 hab s1 s2 s3, sC_circle7 hab]
  unfold Vec3.sub Vec3.scale Vec3.dot qC'
  have hd : gx * gx + gy * gy + 0 * 0 = 4 := by linear_combination hab
  rw [hd]
  simp only [Vec3.mk.injEq]
  norm_num

theorem pulled_circle5 {gx gy : ℝ} (hab : gx ^ 2 + gy ^ 2 = 4) :
    (Vec3.mk gx gy (-5)).sub ((gradientS surfC ⟨gx, gy, -5⟩).scale
      (surfC ⟨gx, gy, -5⟩ /
        (gradientS surfC ⟨gx, gy, -5⟩).dot (gradientS surfC ⟨gx, gy, -5⟩))) =
      ⟨gx, gy, 0⟩ := by
  have hH : GRAD_H = 1 / 10000 := rfl
  have h5 : ¬(gx = 0 ∧ gy = 0) := by
    rintro ⟨rfl, rfl⟩; norm_num at hab
  have h6 : ¬(gx = GRAD_H ∧ gy = 0) := by
    rintro ⟨rfl, rfl⟩; rw [hH] at hab; norm_num at hab
  have h7 : ¬(gx = 0 ∧ gy = GRAD_H) := by
    rintro ⟨rfl, rfl⟩; rw [hH] at hab; norm_num at hab
  rw [grad_circle5 hab, sC_z5 gx gy h5 h6 h7]
  unfold Vec3.sub Vec3.scale Vec3.dot
  simp only [Vec3.mk.injEq]
  norm_num

theorem sub_q_origin : qC.sub ⟨0, 0, 0⟩ = ⟨0, 0, -5⟩ := by
  unfold qC Vec3.sub; norm_num

theorem sub_q'_origin : qC'.sub ⟨0, 0, 0⟩ = ⟨0, 0, -7⟩ := by
  unfold qC' Vec3.sub; norm_num

theorem sub_q'_q' : qC'.sub qC' = ⟨0, 0, 0⟩ := by
  unfold qC' Vec3.sub; norm_num

theorem sub_q'_q : qC'.sub qC = ⟨0, 0, -2⟩ := by
  unfold qC qC' Vec3.sub; norm_num

theorem sub_q_q' : qC.sub qC' = ⟨0, 0, 2⟩ := by
  unfold qC qC' Vec3.sub; norm_num

theorem sub_q_q : qC.sub qC = ⟨0, 0, 0⟩ := by
  unfold qC Vec3.sub; norm_num

theorem add_zero_scale (p : Vec3) (k : ℝ) :
    p.add ((Vec3.mk 0 0 0).scale k) = p := by
  unfold Vec3.add Vec3.scale; simp

theorem step_circle0_origin {gx gy : ℝ} (hab : gx ^ 2 + gy ^ 2 = 4)
    (s1 : gx ≠ -GRAD_H / 2) (s2 : gy ≠ -GRAD_H / 2) (s3 : gy ≠ gx - GRAD_H) :
    refineStep surfC 1 ⟨0, 0, 0⟩ ⟨gx, gy, 0⟩ = qC := by
  simp only [refineStep]
  rw [pulled_circle0 hab s1 s2 s3, sub_q_origin, mag_00n 5 (by norm_num),
    if_neg (by norm_num : ¬(5 : ℝ) < 1 * 2)]

theorem step_qC_origin : refineStep surfC 1 ⟨0, 0, 0⟩ qC = qC' := by
  simp only [refineStep]
  rw [pulled_q, sub_q'_origin, mag_00n 7 (by norm_num),
    if_neg (by norm_num : ¬(7 : ℝ) < 1 * 2)]

theorem step_qC_q' : refineStep surfC 1 qC' qC = qC' := by
  simp only [refineStep]
  rw [pulled_q, sub_q'_q', mag_00p 0 le_rfl,
    if_pos (by norm_num : (0 : ℝ) < 1 * 2), add_zero_scale]

theorem step_qC_q : refineStep surfC 1 qC qC = qC' := by
  simp only [refineStep]
  rw [pulled_q, sub_q'_q, mag_00n 2 (by norm_num),
    if_neg (by norm_num : ¬(2 : ℝ) < 1 * 2)]

theorem step_qC'_origin : refineStep surfC 1 ⟨0, 0, 0⟩ qC' = qC := by
  simp only [refineStep]
  rw [pulled_q', sub_q_origin, mag_00n 5 (by norm_num),
    if_neg (by norm_num : ¬(5 : ℝ) < 1 * 2)]

theorem step_qC'_q' : refineStep surfC 1 qC' qC' = qC := by
  simp only [refineStep]
  rw [pulled_q', sub_q_q', mag_00p 2 (by norm_num),
    if_neg (by norm_num : ¬(2 : ℝ) < 1 * 2)]

theorem step_qC'_q : refineStep surfC 1 qC qC' = qC := by
  simp only [refineStep]
  rw [pulled_q', sub_q_q, mag_00p 0 le_rfl,
    if_pos (by norm_num : (0 : ℝ) < 1 * 2), add_zero_scale]

theorem step_circle7_q' {gx gy : ℝ} (hab : gx ^ 2 + gy ^ 2 = 4)
    (s1 : gx ≠ -GRAD_H / 2) (s2 : gy ≠ -GRAD_H / 2) (s3 : gy ≠ gx - GRAD_H) :
    refineStep surfC 1 qC' ⟨gx, gy, -7⟩ = qC' := by
  simp only [refineStep]
  rw [pulled_circle7 hab s1 s2 s3, sub_q'_q', mag_00p 0 le_rfl,
    if_pos (by norm_num : (0 : ℝ) < 1 * 2), add_zero_scale]

theorem step_circle5_q {gx gy : ℝ} (hab : gx ^ 2 + gy ^ 2 = 4) :
    refineStep surfC 1 qC ⟨gx, gy, -5⟩ = ⟨gx, gy, 0⟩ := by
  simp only [refineStep]
  have hsub : (Vec3.mk gx gy 0).sub qC = ⟨gx, gy, 5⟩ := by
    unfold qC Vec3.sub; norm_num
  have hm : (Vec3.mk gx gy 5).magnitude = Real.sqrt 29 := by
    unfold Vec3.magnitude Vec3.dot
    rw [show gx * gx + gy * gy + 5 * 5 = 29 from by linear_combination hab]
  have hlt : ¬ Real.sqrt 29 < 1 * 2 := by
    have h2 : (2 : ℝ) ≤ Real.sqrt 29 := by
      have h4 : Real.sqrt 4 ≤ Real.sqrt 29 := Real.sqrt_le_sqrt (by norm_num)
      rwa [show (4 : ℝ) = 2 ^ 2 by norm_num,
        Real.sqrt_sq (by norm_num : (0 : ℝ) ≤ 2)] at h4
    linarith
  rw [pulled_circle5 hab, hsub, hm, if_neg hlt]

theorem step_circle0_q {gx gy : ℝ} (hab : gx ^ 2 + gy ^ 2 = 4)
    (s1 : gx ≠ -GRAD_H / 2) (s2 : gy ≠ -GRAD_H / 2) (s3 : gy ≠ gx - GRAD_H) :
    refineStep surfC 1 qC ⟨gx, gy, 0⟩ = qC := by
  simp only [refineStep]
  rw [pulled_circle0 hab s1 s2 s3, sub_q_q, mag_00p 0 le_rfl,
    if_pos (by norm_num : (0 : ℝ) < 1 * 2), add_zero_scale]

theorem loop2_from_q {parent : Vec3}
    (hq : refineStep surfC 1 parent qC = qC')
    (hq' : refineStep surfC 1 parent qC' = qC) (n : ℕ) :
    refineLoop surfC 1 parent (n + 2) qC = refineLoop surfC 1 parent n qC := by
  show refineLoop surfC 1 parent (n + 1 + 1) qC = _
  rw [refineLoop_succ, hq, if_neg notOnS_q', refineLoop_succ, hq',
    if_neg notOnS_q]

theorem loop2_from_q' {parent : Vec3}
    (hq : refineStep surfC 1 parent qC = qC')
    (hq' : refineStep surfC 1 parent qC' = qC) (n : ℕ) :
    refineLoop surfC 1 parent (n + 2) qC' =
      refineLoop surfC 1 parent n qC' := by
  show refineLoop surfC 1 parent (n + 1 + 1) qC' = _
  rw [refineLoop_succ, hq', if_neg notOnS_q, refineLoop_succ, hq,
    if_neg notOnS_q']

theorem refine_L0 {gx gy : ℝ} (hab : gx ^ 2 + gy ^ 2 = 4)
    (s1 : gx ≠ -GRAD_H / 2) (s2 : gy ≠ -GRAD_H / 2) (s3 : gy ≠ gx - GRAD_H) :
    refinePoint surfC 1 ⟨0, 0, 0⟩ ⟨gx, gy, 0⟩ = qC' := by
  have hq : refineStep surfC 1 ⟨0, 0, 0⟩ qC = qC' := step_qC_origin
  have hq' : refineStep surfC 1 ⟨0, 0, 0⟩ qC' = qC := step_qC'_origin
  unfold refinePoint
  show refineLoop surfC 1 ⟨0, 0, 0⟩ (9 + 1) ⟨gx, gy, 0⟩ = qC'
  rw [refineLoop_succ, step_circle0_origin hab s1 s2 s3, if_neg notOnS_q]
  rw [show refineLoop surfC 1 ⟨0, 0, 0⟩ 9 qC = refineLoop surfC 1 ⟨0, 0, 0⟩ 1 qC
      from (loop2_from_q hq hq' 7).trans ((loop2_from_q hq hq' 5).trans
        ((loop2_from_q hq hq' 3).trans (loop2_from_q hq hq' 1)))]
  rw [refineLoop_one, hq]

theorem refine_L1 {gx gy : ℝ} (hab : gx ^ 2 + gy ^ 2 = 4)
    (s1 : gx ≠ -GRAD_H / 2) (s2 : gy ≠ -GRAD_H / 2) (s3 : gy ≠ gx - GRAD_H) :
    refinePoint surfC 1 qC' ⟨gx, gy, -7⟩ = qC := by
  have hq : refineStep surfC 1 qC' qC = qC' := step_qC_q'
  have hq' : refineStep surfC 1 qC' qC' = qC := step_qC'_q'
  unfold refinePoint
  show refineLoop surfC 1 qC' (9 + 1) ⟨gx, gy, -7⟩ = qC
  rw [refineLoop_succ, step_circle7_q' hab s1 s2 s3, if_neg notOnS_q']
  rw [show refineLoop surfC 1 qC' 9 qC' = refineLoop surfC 1 qC' 1 qC'
      from (loop2_from_q' hq hq' 7).trans ((loop2_from_q' hq hq' 5).trans
        ((loop2_from_q' hq hq' 3).trans (loop2_from_q' hq hq' 1)))]
  rw [refineLoop_one, hq']

theorem refine_L2 {gx gy : ℝ} (hab : gx ^ 2 + gy ^ 2 = 4)
    (s1 : gx ≠ -GRAD_H / 2) (s2 : gy ≠ -GRAD_H / 2) (s3 : gy ≠ gx - GRAD_H) :
    refinePoint surfC 1 qC ⟨gx, gy, -5⟩ = qC := by
  have hq : refineStep surfC 1 qC qC = qC' := step_qC_q
  have hq' : refineStep surfC 1 qC qC' = qC := step_qC'_q
  unfold refinePoint
  show refineLoop surfC 1 qC (9 + 1) ⟨gx, gy, -5⟩ = qC
  rw [refineLoop_succ, step_circle5_q hab, if_neg (notOnS_circle0 hab)]
  show refineLoop surfC 1 qC (8 + 1) ⟨gx, gy, 0⟩ = qC
  rw [refineLoop_succ, step_circle0_q hab s1 s2 s3, if_neg notOnS_q]
  rw [show refineLoop surfC 1 qC 8 qC = refineLoop surfC 1 qC 0 qC
      from (loop2_from_q hq hq' 6).trans ((loop2_from_q hq hq' 4).trans
        ((loop2_from_q hq hq' 2).trans (loop2_from_q hq hq' 0)))]
  rfl

theorem fromCoords_z (z px py : ℝ) :
    (Plane.mk ⟨0, 0, z⟩ ⟨0, 1, 0⟩ ⟨1, 0, 0⟩).fromCoords px py = ⟨py, px, z⟩ := by
  unfold Plane.fromCoords Vec3.add Vec3.scale
  simp only [Vec3.mk.injEq]
  refine ⟨by ring, by ring, by ring⟩

theorem thC0 : Real.cos ((0 : ℝ) * Real.pi / 3) = 1 := by norm_num

theorem thS0 : Real.sin ((0 : ℝ) * Real.pi / 3) = 0 := by norm_num

theorem thC1 : Real.cos ((1 : ℝ) * Real.pi / 3) = 1 / 2 := by
  rw [one_mul]; exact Real.cos_pi_div_three

theorem thS1 : Real.sin ((1 : ℝ) * Real.pi / 3) = Real.sqrt 3 / 2 := by
  rw [one_mul]; exact Real.sin_pi_div_three

theorem thC2 : Real.cos ((2 : ℝ) * Real.pi / 3) = -(1 / 2) := by
  rw [show (2 : ℝ) * Real.pi / 3 = Real.pi - Real.pi / 3 by ring,
    Real.cos_pi_sub, Real.cos_pi_div_three]

theorem thS2 : Real.sin ((2 : ℝ) * Real.pi / 3) = Real.sqrt 3 / 2 := by
  rw [show (2 : ℝ) * Real.pi / 3 = Real.pi - Real.pi / 3 by ring,
    Real.sin_pi_sub, Real.sin_pi_div_three]

theorem thC3 : Real.cos ((3 : ℝ) * Real.pi / 3) = -1 := by
  rw [show (3 : ℝ) * Real.pi / 3 = Real.pi by ring, Real.cos_pi]

theorem thS3 : Real.sin ((3 : ℝ) * Real.pi / 3) = 0 := by
  rw [show (3 : ℝ) * Real.pi / 3 = Real.pi by ring, Real.sin_pi]

theorem thC4 : Real.cos ((4 : ℝ) * Real.pi / 3) = -(1 / 2) := by
  rw [show (4 : ℝ) * Real.pi / 3 = Real.pi + Real.pi / 3 by ring,
    Real.cos_add, Real.cos_pi, Real.sin_pi, Real.cos_pi_div_three]
  ring

theorem thS4 : Real.sin ((4 : ℝ) * Real.pi / 3) = -(Real.sqrt 3 / 2) := by
  rw [show (4 : ℝ) * Real.pi / 3 = Real.pi + Real.pi / 3 by ring,
    Real.sin_add, Real.sin_pi, Real.cos_pi, Real.sin_pi_div_three]
  ring

theorem thC5 : Real.cos ((5 : ℝ) * Real.pi / 3) = 1 / 2 := by
  rw [show (5 : ℝ) * Real.pi / 3 = 2 * Real.pi - Real.pi / 3 by ring,
    Real.cos_sub, Real.cos_two_pi, Real.sin_two_pi, Real.cos_pi_div_three]
  ring

theorem thS5 : Real.sin ((5 : ℝ) * Real.pi / 3) = -(Real.sqrt 3 / 2) := by
  rw [show (5 : ℝ) * Real.pi / 3 = 2 * Real.pi - Real.pi / 3 by ring,
    Real.sin_sub, Real.sin_two_pi, Real.cos_two_pi, Real.sin_pi_div_three]
  ring

theorem pairA : (0 : ℝ) ^ 2 + (2 : ℝ) ^ 2 = 4 ∧ (0 : ℝ) ≠ -GRAD_H / 2 ∧
    (2 : ℝ) ≠ -GRAD_H / 2 ∧ (2 : ℝ) ≠ 0 - GRAD_H := by
  norm_num [GRAD_H]

theorem pairB : Real.sqrt 3 ^ 2 + (1 : ℝ) ^ 2 = 4 ∧
    Real.sqrt 3 ≠ -GRAD_H / 2 ∧ (1 : ℝ) ≠ -GRAD_H / 2 ∧
    (1 : ℝ) ≠ Real.sqrt 3 - GRAD_H := by
  have h3 : Real.sqrt 3 ^ 2 = 3 := Real.sq_sqrt (by norm_num)
  have hnn := Real.sqrt_nonneg 3
  refine ⟨by rw [h3]; norm_num, ?_, by norm_num [GRAD_H], ?_⟩
  · intro h; rw [h] at hnn; norm_num [GRAD_H] at hnn
  · intro h
    have hs : Real.sqrt 3 = 1 + GRAD_H := by linarith
    rw [hs] at h3; norm_num [GRAD_H] at h3

theorem pairC : Real.sqrt 3 ^ 2 + (-1 : ℝ) ^ 2 = 4 ∧
    Real.sqrt 3 ≠ -GRAD_H / 2 ∧ (-1 : ℝ) ≠ -GRAD_H / 2 ∧
    (-1 : ℝ) ≠ Real.sqrt 3 - GRAD_H := by
  have h3 : Real.sqrt 3 ^ 2 = 3 := Real.sq_sqrt (by norm_num)
  have hnn := Real.sqrt_nonneg 3
  refine ⟨by rw [h3]; norm_num, ?_, by norm_num [GRAD_H], ?_⟩
  · intro h; rw [h] at hnn; norm_num [GRAD_H] at hnn
  · intro h
    have hs : Real.sqrt 3 = -1 + GRAD_H := by linarith
    rw [hs] at hnn; norm_num [GRAD_H] at hnn

theorem pairD : (0 : ℝ) ^ 2 + (-2 : ℝ) ^ 2 = 4 ∧ (0 : ℝ) ≠ -GRAD_H / 2 ∧
    (-2 : ℝ) ≠ -GRAD_H / 2 ∧ (-2 : ℝ) ≠ 0 - GRAD_H := by
  norm_num [GRAD_H]

theorem pairE : (-Real.sqrt 3) ^ 2 + (-1 : ℝ) ^ 2 = 4 ∧
    -Real.sqrt 3 ≠ -GRAD_H / 2 ∧ (-1 : ℝ) ≠ -GRAD_H / 2 ∧
    (-1 : ℝ) ≠ -Real.sqrt 3 - GRAD_H := by
  have h3 : Real.sqrt 3 ^ 2 = 3 := Real.sq_sqrt (by norm_num)
  have hsq : (-Real.sqrt 3 : ℝ) ^ 2 = Real.sqrt 3 ^ 2 := by ring
  refine ⟨by rw [hsq, h3]; norm_num, ?_, by norm_num [GRAD_H], ?_⟩
  · intro h
    have hs : Real.sqrt 3 = GRAD_H / 2 := by linarith
    rw [hs] at h3; norm_num [GRAD_H] at h3
  · intro h
    have hs : Real.sqrt 3 = 1 - GRAD_H := by linarith
    rw [hs] at h3; norm_num [GRAD_H] at h3

theorem pairF : (-Real.sqrt 3) ^ 2 + (1 : ℝ) ^ 2 = 4 ∧
    -Real.sqrt 3 ≠ -GRAD_H / 2 ∧ (1 : ℝ) ≠ -GRAD_H / 2 ∧
    (1 : ℝ) ≠ -Real.sqrt 3 - GRAD_H := by
  have h3 : Real.sqrt 3 ^ 2 = 3 := Real.sq_sqrt (by norm_num)
  have hnn := Real.sqrt_nonneg 3
  have hsq : (-Real.sqrt 3 : ℝ) ^ 2 = Real.sqrt 3 ^ 2 := by ring
  refine ⟨by rw [hsq, h3]; norm_num, ?_, by norm_num [GRAD_H], ?_⟩
  · intro h
    have hs : Real.sqrt 3 = GRAD_H / 2 := by linarith
    rw [hs] at h3; norm_num [GRAD_H] at h3
  · intro h
    have hs : Real.sqrt 3 = -1 - GRAD_H := by linarith
    rw [hs] at hnn; norm_num [GRAD_H] at hnn

theorem sib_0 : siblingPoints surfC ⟨0, 0, 0⟩ 1 = List.replicate 6 qC' := by
  simp only [siblingPoints, grad_seed, normalize_unitz, plane_unitz]
  rw [show List.range 6 = [0, 1, 2, 3, 4, 5] by decide,
    show List.replicate 6 qC' = [qC', qC', qC', qC', qC', qC'] from rfl]
  simp only [List.map_cons, List.map_nil, List.cons.injEq, and_true]
  refine ⟨?_, ?_, ?_, ?_, ?_, ?_⟩
  · rw [fromCoords_z]
    push_cast
    rw [thC0, thS0, show (Vec3.mk ((0:ℝ) * (1 * 2)) ((1:ℝ) * (1 * 2)) 0) =
      ⟨0, 2, 0⟩ from by norm_num]
    exact refine_L0 pairA.1 pairA.2.1 pairA.2.2.1 pairA.2.2.2
  · rw [fromCoords_z]
    push_cast
    rw [thC1, thS1, show (Vec3.mk (Real.sqrt 3 / 2 * (1 * 2))
      ((1:ℝ) / 2 * (1 * 2)) 0) = ⟨Real.sqrt 3, 1, 0⟩ from by
        simp only [Vec3.mk.injEq]; refine ⟨by ring, by norm_num, trivial⟩]
    exact refine_L0 pairB.1 pairB.2.1 pairB.2.2.1 pairB.2.2.2
  · rw [fromCoords_z]
    push_cast
    rw [thC2, thS2, show (Vec3.mk (Real.sqrt 3 / 2 * (1 * 2))
      (-((1:ℝ) / 2) * (1 * 2)) 0) = ⟨Real.sqrt 3, -1, 0⟩ from by
        simp only [Vec3.mk.injEq]; refine ⟨by ring, by norm_num, trivial⟩]
    exact refine_L0 pairC.1 pairC.2.1 pairC.2.2.1 pairC.2.2.2
  · rw [fromCoords_z]
    push_cast
    rw [thC3, thS3, show (Vec3.mk ((0:ℝ) * (1 * 2)) (-(1:ℝ) * (1 * 2)) 0) =
      ⟨0, -2, 0⟩ from by norm_num]
    exact refine_L0 pairD.1 pairD.2.1 pairD.2.2.1 pairD.2.2.2
  · rw [fromCoords_z]
    push_cast
    rw [thC4, thS4, show (Vec3.mk (-(Real.sqrt 3 / 2) * (1 * 2))
      (-((1:ℝ) / 2) * (1 * 2)) 0) = ⟨-Real.sqrt 3, -1, 0⟩ from by
        simp only [Vec3.mk.injEq]; refine ⟨by ring, by norm_num, trivial⟩]
    exact refine_L0 pairE.1 pairE.2.1 pairE.2.2.1 pairE.2.2.2
  · rw [fromCoords_z]
    push_cast
    rw [thC5, thS5, show (Vec3.mk (-(Real.sqrt 3 / 2) * (1 * 2))
      ((1:ℝ) / 2 * (1 * 2)) 0) = ⟨-Real.sqrt 3, 1, 0⟩ from by
        simp only [Vec3.mk.injEq]; refine ⟨by ring, by norm_num, trivial⟩]
    exact refine_L0 pairF.1 pairF.2.1 pairF.2.2.1 pairF.2.2.2

theorem sib_q' : siblingPoints surfC qC' 1 = List.replicate 6 qC := by
  rw [show qC' = (⟨0, 0, -7⟩ : Vec3) from rfl]
  have hg : gradientS surfC (⟨0, 0, -7⟩ : Vec3) = ⟨0, 0, 1⟩ := grad_q'
  simp only [siblingPoints, hg, normalize_unitz, plane_unitz]
  rw [show List.range 6 = [0, 1, 2, 3, 4, 5] by decide,
    show List.replicate 6 qC =
      [qC, qC, qC, qC, qC, qC] from rfl]
  simp only [List.map_cons, List.map_nil, List.cons.injEq, and_true]
  refine ⟨?_, ?_, ?_, ?_, ?_, ?_⟩
  · rw [fromCoords_z]
    push_cast
    rw [thC0, thS0, show (Vec3.mk ((0:ℝ) * (1 * 2)) ((1:ℝ) * (1 * 2)) (-7)) =
      ⟨0, 2, -7⟩ from by norm_num]
    exact refine_L1 pairA.1 pairA.2.1 pairA.2.2.1 pairA.2.2.2
  · rw [fromCoords_z]
    push_cast
    rw [thC1, thS1, show (Vec3.mk (Real.sqrt 3 / 2 * (1 * 2))
      ((1:ℝ) / 2 * (1 * 2)) (-7)) = ⟨Real.sqrt 3, 1, -7⟩ from by
        simp only [Vec3.mk.injEq]; refine ⟨by ring, by norm_num, trivial⟩]
    exact refine_L1 pairB.1 pairB.2.1 pairB.2.2.1 pairB.2.2.2
  · rw [fromCoords_z]
    push_cast
    rw [thC2, thS2, show (Vec3.mk (Real.sqrt 3 / 2 * (1 * 2))
      (-((1:ℝ) / 2) * (1 * 2)) (-7)) = ⟨Real.sqrt 3, -1, -7⟩ from by
        simp only [Vec3.mk.injEq]; refine ⟨by ring, by norm_num, trivial⟩]
    exact refine_L1 pairC.1 pairC.2.1 pairC.2.2.1 pairC.2.2.2
  · rw [fromCoords_z]
    push_cast
    rw [thC3, thS3, show (Vec3.mk ((0:ℝ) * (1 * 2)) (-(1:ℝ) * (1 * 2)) (-7)) =
      ⟨0, -2, -7⟩ from by norm_num]
    exact refine_L1 pairD.1 pairD.2.1 pairD.2.2.1 pairD.2.2.2
  · rw [fromCoords_z]
    push_cast
    rw [thC4, thS4, show (Vec3.mk (-(Real.sqrt 3 / 2) * (1 * 2))
      (-((1:ℝ) / 2) * (1 * 2)) (-7)) = ⟨-Real.sqrt 3, -1, -7⟩ from by
        simp only [Vec3.mk.injEq]; refine ⟨by ring, by norm_num, trivial⟩]
    exact refine_L1 pairE.1 pairE.2.1 pairE.2.2.1 pairE.2.2.2
  · rw [fromCoords_z]
    push_cast
    rw [thC5, thS5, show (Vec3.mk (-(Real.sqrt 3 / 2) * (1 * 2))
      ((1:ℝ) / 2 * (1 * 2)) (-7)) = ⟨-Real.sqrt 3, 1, -7⟩ from by
        simp only [Vec3.mk.injEq]; refine ⟨by ring, by norm_num, trivial⟩]
    exact refine_L1 pairF.1 pairF.2.1 pairF.2.2.1 pairF.2.2.2

theorem sib_q : siblingPoints surfC qC 1 = List.replicate 6 qC := by
  rw [show qC = (⟨0, 0, -5⟩ : Vec3) from rfl]
  have hg : gradientS surfC (⟨0, 0, -5⟩ : Vec3) = ⟨0, 0, 1⟩ := grad_q
  simp only [siblingPoints, hg, normalize_unitz, plane_unitz]
  rw [show List.range 6 = [0, 1, 2, 3, 4, 5] by decide,
    show List.replicate 6 (⟨0, 0, -5⟩ : Vec3) =
      [(⟨0, 0, -5⟩ : Vec3), (⟨0, 0, -5⟩ : Vec3), (⟨0, 0, -5⟩ : Vec3), (⟨0, 0, -5⟩ : Vec3), (⟨0, 0, -5⟩ : Vec3), (⟨0, 0, -5⟩ : Vec3)] from rfl]
  simp only [List.map_cons, List.map_nil, List.cons.injEq, and_true]
  refine ⟨?_, ?_, ?_, ?_, ?_, ?_⟩
  · rw [fromCoords_z]
    push_cast
    rw [thC0, thS0, show (Vec3.mk ((0:ℝ) * (1 * 2)) ((1:ℝ) * (1 * 2)) (-5)) =
      ⟨0, 2, -5⟩ from by norm_num]
    exact refine_L2 pairA.1 pairA.2.1 pairA.2.2.1 pairA.2.2.2
  · rw [fromCoords_z]
    push_cast
    rw [thC1, thS1, show (Vec3.mk (Real.sqrt 3 / 2 * (1 * 2))
      ((1:ℝ) / 2 * (1 * 2)) (-5)) = ⟨Real.sqrt 3, 1, -5⟩ from by
        simp only [Vec3.mk.injEq]; refine ⟨by ring, by norm_num, trivial⟩]
    exact refine_L2 pairB.1 pairB.2.1 pairB.2.2.1 pairB.2.2.2
  · rw [fromCoords_z]
    push_cast
    rw [thC2, thS2, show (Vec3.mk (Real.sqrt 3 / 2 * (1 * 2))
      (-((1:ℝ) / 2) * (1 * 2)) (-5)) = ⟨Real.sqrt 3, -1, -5⟩ from by
        simp only [Vec3.mk.injEq]; refine ⟨by ring, by norm_num, trivial⟩]
    exact refine_L2 pairC.1 pairC.2.1 pairC.2.2.1 pairC.2.2.2
  · rw [fromCoords_z]
    push_cast
    rw [thC3, thS3, show (Vec3.mk ((0:ℝ) * (1 * 2)) (-(1:ℝ) * (1 * 2)) (-5)) =
      ⟨0, -2, -5⟩ from by norm_num]
    exact refine_L2 pairD.1 pairD.2.1 pairD.2.2.1 pairD.2.2.2
  · rw [fromCoords_z]
    push_cast
    rw [thC4, thS4, show (Vec3.mk (-(Real.sqrt 3 / 2) * (1 * 2))
      (-((1:ℝ) / 2) * (1 * 2)) (-5)) = ⟨-Real.sqrt 3, -1, -5⟩ from by
        simp only [Vec3.mk.injEq]; refine ⟨by ring, by norm_num, trivial⟩]
    exact refine_L2 pairE.1 pairE.2.1 pairE.2.2.1 pairE.2.2.2
  · rw [fromCoords_z]
    push_cast
    rw [thC5, thS5, show (Vec3.mk (-(Real.sqrt 3 / 2) * (1 * 2))
      ((1:ℝ) / 2 * (1 * 2)) (-5)) = ⟨-Real.sqrt 3, 1, -5⟩ from by
        simp only [Vec3.mk.injEq]; refine ⟨by ring, by norm_num, trivial⟩]
    exact refine_L2 pairF.1 pairF.2.1 pairF.2.2.1 pairF.2.2.2

theorem push_small (items : List Vec3) (l : List ℕ) (p : Vec3)
    (h : l.length + 1 < KD_LEAF_SIZE) :
    KdContainer.push ⟨items, .Leaf l⟩ p =
      ⟨items ++ [p], .Leaf (l ++ [items.length])⟩ := by
  unfold KdContainer.push
  simp only [insertItemIndex, List.length_append, List.length_singleton,
    Nat.add_sub_cancel]
  split_ifs with hc
  · exfalso
    simp only [List.length_append, List.length_singleton] at hc
    unfold KD_LEAF_SIZE at h hc
    omega
  · rfl

theorem append6 :
    KdContainer.new.append (List.replicate 6 qC') = sampleC0 := by
  have h0 : KdContainer.push KdContainer.new qC' = ⟨[qC'], .Leaf [0]⟩ := by
    rw [show KdContainer.new = (⟨[], .Leaf []⟩ : KdContainer) from rfl,
      push_small [] [] qC' (by norm_num [KD_LEAF_SIZE])]
    rfl
  have h1 : KdContainer.push ⟨[qC'], .Leaf [0]⟩ qC' =
      ⟨[qC', qC'], .Leaf [0, 1]⟩ := by
    rw [push_small _ _ _ (by norm_num [KD_LEAF_SIZE])]
    rfl
  have h2 : KdContainer.push ⟨[qC', qC'], .Leaf [0, 1]⟩ qC' =
      ⟨[qC', qC', qC'], .Leaf [0, 1, 2]⟩ := by
    rw [push_small _ _ _ (by norm_num [KD_LEAF_SIZE])]
    rfl
  have h3 : KdContainer.push ⟨[qC', qC', qC'], .Leaf [0, 1, 2]⟩ qC' =
      ⟨[qC', qC', qC', qC'], .Leaf [0, 1, 2, 3]⟩ := by
    rw [push_small _ _ _ (by norm_num [KD_LEAF_SIZE])]
    rfl
  have h4 : KdContainer.push ⟨[qC', qC', qC', qC'], .Leaf [0, 1, 2, 3]⟩ qC' =
      ⟨[qC', qC', qC', qC', qC'], .Leaf [0, 1, 2, 3, 4]⟩ := by
    rw [push_small _ _ _ (by norm_num [KD_LEAF_SIZE])]
    rfl
  have h5 : KdContainer.push ⟨[qC', qC', qC', qC', qC'],
      .Leaf [0, 1, 2, 3, 4]⟩ qC' =
      ⟨[qC', qC', qC', qC', qC', qC'], .Leaf [0, 1, 2, 3, 4, 5]⟩ := by
    rw [push_small _ _ _ (by norm_num [KD_LEAF_SIZE])]
    rfl
  unfold KdContainer.append
  rw [show List.replicate 6 qC' = [qC', qC', qC', qC', qC', qC'] from rfl]
  simp only [List.foldl_cons, List.foldl_nil]
  rw [h0, h1, h2, h3, h4, h5]
  rfl

theorem query1 :
    KdContainer.anyItemsInRadius sampleC0 qC (1 * 1.9) = false := by
  unfold sampleC0 KdContainer.anyItemsInRadius
  simp only [anyIndicesWithin]
  rw [List.any_eq_false]
  intro i hi
  fin_cases hi
  all_goals show ¬ (decide (Vec3.distanceTo qC' qC ≤ 1 * 1.9) = true)
  all_goals simp only [decide_eq_true_eq, Vec3.distanceTo]
  all_goals rw [sub_q'_q, mag_00n 2 (by norm_num)]
  all_goals norm_num

theorem query2 :
    KdContainer.anyItemsInRadius sampleC1 qC (1 * 1.9) = true := by
  unfold sampleC1 KdContainer.anyItemsInRadius
  simp only [anyIndicesWithin]
  rw [List.any_eq_true]
  refine ⟨6, by decide, ?_⟩
  show decide (Vec3.distanceTo qC qC ≤ 1 * 1.9) = true
  simp only [decide_eq_true_eq, Vec3.distanceTo]
  rw [sub_q_q, mag_00p 0 le_rfl]
  norm_num

theorem stepA (u : List Vec3) :
    sampleFoldStep 1 (sampleC0, u) qC = (sampleC1, u ++ [qC]) := by
  unfold sampleFoldStep
  simp only
  rw [query1]
  simp only [Bool.false_eq_true, if_false]
  unfold sampleC0 sampleC1
  rw [push_small _ _ _ (by norm_num [KD_LEAF_SIZE])]
  simp [List.length_replicate]

theorem stepR (u : List Vec3) :
    sampleFoldStep 1 (sampleC1, u) qC = (sampleC1, u) := by
  unfold sampleFoldStep
  simp only
  rw [query2]
  simp

theorem foldR : ∀ (n : ℕ) (u : List Vec3),
    (List.replicate n qC).foldl (sampleFoldStep 1) (sampleC1, u) =
      (sampleC1, u) := by
  intro n
  induction n with
  | zero => intro u; rfl
  | succ n ih =>
    intro u
    rw [List.replicate_succ, List.foldl_cons, stepR]
    exact ih u

theorem foldA (u : List Vec3) :
    (List.replicate 6 qC).foldl (sampleFoldStep 1) (sampleC0, u) =
      (sampleC1, u ++ [qC]) := by
  rw [show List.replicate 6 qC = qC :: List.replicate 5 qC from rfl,
    List.foldl_cons, stepA, foldR 5]

theorem sampleLoop_pop (surface : Vec3 → ℝ) (r : ℝ) (fuel : ℕ)
    (samples : KdContainer) (untreated : List Vec3) (nextSeed : Vec3)
    (h : untreated.getLast? = some nextSeed) :
    sampleLoop surface r (fuel + 1) samples untreated =
      sampleLoop surface r fuel
        ((siblingPoints surface nextSeed r).foldl (sampleFoldStep r)
          (samples, untreated.dropLast)).1
        ((siblingPoints surface nextSeed r).foldl (sampleFoldStep r)
          (samples, untreated.dropLast)).2 := by
  simp only [sampleLoop, h]

theorem sampleLoop_done (surface : Vec3 → ℝ) (r : ℝ) (fuel : ℕ)
    (samples : KdContainer) :
    sampleLoop surface r (fuel + 1) samples [] = some samples.items := rfl

theorem iterFirst (f : ℕ) :
    sampleLoop surfC 1 (f + 1) sampleC0 (List.replicate 6 qC') =
      sampleLoop surfC 1 f sampleC1 (List.replicate 5 qC' ++ [qC]) := by
  rw [show List.replicate 6 qC' = List.replicate 5 qC' ++ [qC'] from rfl,
    sampleLoop_pop surfC 1 f sampleC0 _ qC' (List.getLast?_concat _),
    List.dropLast_concat, sib_q', foldA]

theorem iterPopQ (f : ℕ) (u : List Vec3) :
    sampleLoop surfC 1 (f + 1) sampleC1 (u ++ [qC]) =
      sampleLoop surfC 1 f sampleC1 u := by
  rw [sampleLoop_pop surfC 1 f sampleC1 _ qC (List.getLast?_concat _),
    List.dropLast_concat, sib_q, foldR 6]

theorem iterPopQ' (f : ℕ) (u : List Vec3) :
    sampleLoop surfC 1 (f + 1) sampleC1 (u ++ [qC']) =
      sampleLoop surfC 1 f sampleC1 u := by
  rw [sampleLoop_pop surfC 1 f sampleC1 _ qC' (List.getLast?_concat _),
    List.dropLast_concat, sib_q', foldR 6]

theorem sampleModel_surfC_eval :
    sampleModel surfC ⟨0, 0, 0⟩ 1 20 = some sampleResC := by
  unfold sampleModel
  rw [if_neg (not_not_intro onS_seed)]
  simp only [sib_0]
  rw [append6]
  show sampleLoop surfC 1 (19 + 1) sampleC0 (List.replicate 6 qC') = _
  rw [iterFirst 19]
  show sampleLoop surfC 1 (18 + 1) sampleC1 (List.replicate 5 qC' ++ [qC]) = _
  rw [iterPopQ 18 (List.replicate 5 qC')]
  show sampleLoop surfC 1 (17 + 1) sampleC1
    (List.replicate 4 qC' ++ [qC']) = _
  rw [iterPopQ' 17 (List.replicate 4 qC')]
  show sampleLoop surfC 1 (16 + 1) sampleC1
    (List.replicate 3 qC' ++ [qC']) = _
  rw [iterPopQ' 16 (List.replicate 3 qC')]
  show sampleLoop surfC 1 (15 + 1) sampleC1
    (List.replicate 2 qC' ++ [qC']) = _
  rw [iterPopQ' 15 (List.replicate 2 qC')]
  show sampleLoop surfC 1 (14 + 1) sampleC1
    (List.replicate 1 qC' ++ [qC']) = _
  rw [iterPopQ' 14 (List.replicate 1 qC')]
  show sampleLoop surfC 1 (13 + 1) sampleC1
    (List.replicate 0 qC' ++ [qC']) = _
  rw [iterPopQ' 13 (List.replicate 0 qC')]
  show sampleLoop surfC 1 (12 + 1) sampleC1 [] = _
  rw [sampleLoop_done]
  rfl

/-- Counterexample to claim C4 as stated: on the surface `surfC` the
sampler completes and returns a list whose first two points (two of the six
initial siblings of the seed) coincide — distance `0`, not greater than
`1.9·ρ`.  The six initial siblings are accepted without the `1.9·ρ` test. -/
theorem C4_counterexample :
    ∃ res, sampleModel surfC ⟨0, 0, 0⟩ 1 20 = some res ∧ 1 < res.length ∧
      ¬ ((res.getD 0 Vec3.zero).distanceTo (res.getD 1 Vec3.zero) >
        1 * 1.9) := by
  refine ⟨sampleResC, sampleModel_surfC_eval, by norm_num [sampleResC], ?_⟩
  show ¬ (Vec3.distanceTo qC' qC' > 1 * 1.9)
  unfold Vec3.distanceTo
  rw [sub_q'_q', mag_00p 0 le_rfl]
  norm_num

/-- Witness for the amended C4 theorem: in the concrete completed run on
`surfC`, the expansion-accepted point (index 6) is at distance `2 > 1.9·ρ`
from the initial sibling at index 0. -/
theorem C4_sampler_separation_witness :
    (sampleResC.getD 0 Vec3.zero).distanceTo (sampleResC.getD 6 Vec3.zero) >
      1 * 1.9 :=
  C4_sampler_separation sampleModel_surfC_eval 0 6 (by norm_num)
    (by norm_num [sampleResC]) (by norm_num)

/-- Counterexample to claim C5 as stated: on the surface `surfC` the
sampler completes and returns the off-surface point `(0,0,-7)` (the 10
refinement iterations end on a 2-cycle that never reaches the surface, and
`refine_point` returns the last iterate regardless). -/
theorem C5_counterexample :
    ∃ res, sampleModel surfC ⟨0, 0, 0⟩ 1 20 = some res ∧
      qC' ∈ res ∧ ¬ onSurface surfC qC' :=
  ⟨sampleResC, sampleModel_surfC_eval, by simp [sampleResC], notOnS_q'⟩

end CreatureCreator

